import Mathlib

/-!
# Verification of the `pudding` terminal pane multiplexer layout engine

This development embeds the Rust sources of the `pudding` repository
(crates/pudding/src) into Lean and proves or refutes the specification
claims about them.

The repository contains two coexisting revisions of the data model:

* the "bite/spoon" revision (`model` with `Node::Bite`/`Node::Spoon`,
  `layout/geometry.rs`, `layout/manipulation.rs`, `layout/navigation.rs`,
  `layout/search.rs`, `template/validation.rs`, `template/io.rs`,
  `editor/editor_keys.rs`, `runtime.rs`), embedded in namespace `Bites`;
* the "pane/split" revision (`model.rs`, `layout.rs`, `template.rs`),
  embedded in namespace `Panes`.

Modelling conventions:

* `u64` ids and `u16` screen coordinates are modelled as `Nat`
  (no operation in the verified code paths relies on wrap-around;
  the sources use `saturating_add`/guarded arithmetic at the few
  places where overflow could occur);
* `f32` ratios are modelled as `Rat`; `f32::clamp` and `f32::round`
  are modelled exactly on rationals (`round` is round-half-away-from-zero,
  which on the non-negative values that occur is `floor (x + 1/2)`);
* Rust `String` is Lean `String`; `str::trim().is_empty()` is modelled
  as "every character is whitespace" (`trim_is_empty`), which is the
  same predicate;
* `&mut` tree mutation is modelled by functions returning the new tree
  together with the original return value;
* file contents, pseudo-terminals and the terminal backend are external:
  file system state is modelled as an explicit value passed to the
  load/save functions, and the kdl text printer/parser (an external crate)
  is modelled as the identity on structured documents.
-/

/-- Models Rust `s.trim().is_empty()`: true iff every char of `s` is
whitespace (trimming whitespace from both ends leaves the empty string). -/
def trim_is_empty (s : String) : Bool :=
  s.data.all Char.isWhitespace

namespace Bites

/-- `model::Orientation` of the bite/spoon revision. -/
inductive Orientation where
  | Vertical
  | Horizontal
deriving DecidableEq, Repr

/-- `model::Node` of the bite/spoon revision.  The enum declaration itself
is absent from `src/` (the `model.rs` present belongs to the pane/split
revision); its constructors and fields are reconstructed from the
exhaustive pattern matches in `layout/manipulation.rs`,
`layout/navigation.rs`, `layout/search.rs` and `template/validation.rs`,
and agree with the spec data model (Leaf = Bite, Split = Spoon). -/
inductive Node where
  | Bite (id : Nat) (name : String) (command : String)
  | Spoon (id : Nat) (orientation : Orientation) (ratio : Rat)
      (first : Node) (second : Node)
deriving DecidableEq, Repr

/-- `Node::id()`. -/
def Node.id : Node → Nat
  | .Bite i _ _ => i
  | .Spoon i _ _ _ _ => i

/-- All node ids in pre-order (the order `walk` visits nodes). -/
def allIds : Node → List Nat
  | .Bite i _ _ => [i]
  | .Spoon i _ _ f s => i :: (allIds f ++ allIds s)

/-- `layout::navigation::collect_bites` (out-parameter accumulation
modelled as the returned list). -/
def collect_bites : Node → List Nat
  | .Bite i _ _ => [i]
  | .Spoon _ _ _ f s => collect_bites f ++ collect_bites s

/-- `layout::manipulation::contains_bite`. -/
def contains_bite : Node → Nat → Bool
  | .Bite i _ _, target => i == target
  | .Spoon _ _ _ f s, target => contains_bite f target || contains_bite s target

/-- The maximum id visited by `walk` starting from accumulator 0; used by
`next_id`. -/
def maxId : Node → Nat
  | .Bite i _ _ => i
  | .Spoon i _ _ f s => max i (max (maxId f) (maxId s))

/-- `layout::manipulation::next_id`: one greater than the maximum id.
(`u64` modelled as `Nat`, so the `max_id + 1` cannot overflow.) -/
def next_id (n : Node) : Nat :=
  maxId n + 1

/-- `layout::geometry::clamp_ratio` (`f32::clamp(0.1, 0.9)` on rationals;
the constants are `MIN_RATIO = 0.1` and `MAX_RATIO = 0.9`). -/
def clamp_ratio (r : Rat) : Rat :=
  if r < mkRat 1 10 then mkRat 1 10 else if r > mkRat 9 10 then mkRat 9 10 else r

/-- `layout::manipulation::split_bite`, returning the updated tree
together with the `bool` result. -/
def split_bite (node : Node) (target_id : Nat) (orientation : Orientation)
    (ratio : Rat) (new_id : Nat) (default_command : String) : Node × Bool :=
  match node with
  | .Bite id name command =>
      if id = target_id then
        (.Spoon (new_id + 1) orientation (clamp_ratio ratio)
          (.Bite id name command)
          (.Bite new_id ("bite-" ++ toString new_id) default_command), true)
      else
        (.Bite id name command, false)
  | .Spoon id o r f s =>
      let (f', okf) := split_bite f target_id orientation ratio new_id default_command
      if okf then
        (.Spoon id o r f' s, true)
      else
        let (s', oks) := split_bite s target_id orientation ratio new_id default_command
        (.Spoon id o r f' s', oks)

/-- `layout::manipulation::resize_from_bite_inner`. -/
def resize_from_bite_inner (node : Node) (target_id : Nat)
    (orientation : Orientation) (delta : Rat) : Node × Bool :=
  match node with
  | .Bite id name command => (.Bite id name command, false)
  | .Spoon id o r f s =>
      if o = orientation then
        if contains_bite f target_id || contains_bite s target_id then
          (.Spoon id o (clamp_ratio (r + delta)) f s, true)
        else
          let (f', okf) := resize_from_bite_inner f target_id orientation delta
          if okf then (.Spoon id o r f' s, true)
          else
            let (s', oks) := resize_from_bite_inner s target_id orientation delta
            (.Spoon id o r f' s', oks)
      else
        let (f', okf) := resize_from_bite_inner f target_id orientation delta
        if okf then (.Spoon id o r f' s, true)
        else
          let (s', oks) := resize_from_bite_inner s target_id orientation delta
          (.Spoon id o r f' s', oks)

/-- `layout::manipulation::resize_from_bite`. -/
def resize_from_bite (node : Node) (target_id : Nat)
    (orientation : Orientation) (delta : Rat) : Node × Bool :=
  resize_from_bite_inner node target_id orientation delta

/-- `matches!(node, Node::Bite { .. })`. -/
def Node.isBite : Node → Bool
  | .Bite _ _ _ => true
  | .Spoon _ _ _ _ _ => false

/-- `layout::manipulation::swap_adjacent_bites`.  At a matching `Spoon`
whose two direct children are both bites and one of them is the target,
the children are swapped; otherwise recursion proceeds `first` then
`second` with short-circuit. -/
def swap_adjacent_bites (node : Node) (target_id : Nat)
    (orientation : Orientation) : Node × Bool :=
  match node with
  | .Bite id name command => (.Bite id name command, false)
  | .Spoon id o r f s =>
      if o = orientation ∧ (f.isBite && s.isBite) = true
          ∧ (f.id = target_id ∨ s.id = target_id) then
        (.Spoon id o r s f, true)
      else
        let (f', okf) := swap_adjacent_bites f target_id orientation
        if okf then (.Spoon id o r f' s, true)
        else
          let (s', oks) := swap_adjacent_bites s target_id orientation
          (.Spoon id o r f' s', oks)

/-- `Modelled from the spec:` the bite/spoon revision exposes no delete
operation under `src/` (only the pane/split revision's
`layout.rs::delete_node_owned` exists).  This is the spec §4.2
`delete_leaf` promotion step, mirrored on the structure of
`delete_node_owned`: at a `Spoon`, a direct child whose id is the target
is removed and the sibling subtree is promoted in place of the `Spoon`
(the sibling keeps its id, the `Spoon` id is discarded); otherwise
recursion proceeds `first` then `second` with short-circuit. -/
def delete_bite_owned (node : Node) (target_id : Nat) : Node × Bool :=
  match node with
  | .Bite id name command => (.Bite id name command, false)
  | .Spoon id o r f s =>
      if f.id = target_id then (s, true)
      else if s.id = target_id then (f, true)
      else
        let (f', okf) := delete_bite_owned f target_id
        if okf then (.Spoon id o r f' s, true)
        else
          let (s', oks) := delete_bite_owned s target_id
          (.Spoon id o r f' s', oks)

/-- Number of bites in the tree (spec `pane_count`). -/
def bite_count : Node → Nat
  | .Bite _ _ _ => 1
  | .Spoon _ _ _ f s => bite_count f + bite_count s

/-- `Modelled from the spec:` spec §4.2 `delete_leaf` entry point,
mirroring `layout.rs::delete_node`: a single-bite tree fails `LastBite`,
a target that is not a bite fails `NotFound`; both failures leave the
tree unchanged. -/
inductive DeleteError where
  | LastBite
  | NotFound
deriving DecidableEq, Repr

/-- `Modelled from the spec:` see `delete_bite_owned`. -/
def delete_bite (node : Node) (target_id : Nat) : Node × Option DeleteError :=
  if bite_count node ≤ 1 then (node, some .LastBite)
  else if !(contains_bite node target_id) then (node, some .NotFound)
  else
    let (node', deleted) := delete_bite_owned node target_id
    if deleted then (node', none) else (node', some .NotFound)

/-- `ratatui::layout::Rect` (u16 fields modelled as `Nat`). -/
structure Rect where
  x : Nat
  y : Nat
  width : Nat
  height : Nat
deriving DecidableEq, Repr

/-- `layout::geometry::point_in_rect`. -/
def point_in_rect (rect : Rect) (x y : Nat) : Bool :=
  x ≥ rect.x && x < rect.x + rect.width && y ≥ rect.y && y < rect.y + rect.height

/-- Rust `f32::round` on a non-negative rational followed by the cast to
`u16`: round-half-away-from-zero, which for non-negative values is
`⌊q + 1/2⌋`. -/
def rust_round (q : Rat) : Nat :=
  (Int.toNat ⌊q + mkRat 1 2⌋)

/-- `layout::geometry::split_rect`. -/
def split_rect (rect : Rect) (orientation : Orientation) (ratio : Rat) :
    Rect × Rect :=
  let ratio := clamp_ratio ratio
  match orientation with
  | .Vertical =>
      if rect.width ≤ 1 then
        (⟨rect.x, rect.y, rect.width, rect.height⟩,
         ⟨rect.x + rect.width, rect.y, 0, rect.height⟩)
      else
        let w1 := rust_round (rect.width * ratio)
        let w1 := if w1 < 1 then 1 else w1
        let w1 := if w1 ≥ rect.width then rect.width - 1 else w1
        (⟨rect.x, rect.y, w1, rect.height⟩,
         ⟨rect.x + w1, rect.y, rect.width - w1, rect.height⟩)
  | .Horizontal =>
      if rect.height ≤ 1 then
        (⟨rect.x, rect.y, rect.width, rect.height⟩,
         ⟨rect.x, rect.y + rect.height, rect.width, 0⟩)
      else
        let h1 := rust_round (rect.height * ratio)
        let h1 := if h1 < 1 then 1 else h1
        let h1 := if h1 ≥ rect.height then rect.height - 1 else h1
        (⟨rect.x, rect.y, rect.width, h1⟩,
         ⟨rect.x, rect.y + h1, rect.width, rect.height - h1⟩)

/-- `layout::navigation::layout_rects` (out-parameter accumulation
modelled as the returned list). -/
def layout_rects (node : Node) (rect : Rect) : List (Nat × Rect) :=
  match node with
  | .Bite id _ _ => [(id, rect)]
  | .Spoon _ o r f s =>
      let (r1, r2) := split_rect rect o r
      layout_rects f r1 ++ layout_rects s r2

/-- `layout::search::find_bite`. -/
def find_bite (node : Node) (target_id : Nat) : Option Node :=
  match node with
  | .Bite id name command =>
      if id = target_id then some (.Bite id name command) else none
  | .Spoon _ _ _ f s =>
      (find_bite f target_id).orElse (fun _ => find_bite s target_id)

/-- `layout::search::find_bite_at`.  Note: a `Bite` node returns its id
without any containment check of `(x, y)` against `rect`. -/
def find_bite_at (node : Node) (rect : Rect) (x y : Nat) : Option Nat :=
  match node with
  | .Bite id _ _ => some id
  | .Spoon _ o r f s =>
      let (r1, r2) := split_rect rect o r
      if point_in_rect r1 x y then find_bite_at f r1 x y
      else if point_in_rect r2 x y then find_bite_at s r2 x y
      else none

/-- Every `Spoon` ratio lies in `[0.1, 0.9]` (spec tree invariant,
`template/validation.rs` check). -/
def ratiosOk : Node → Bool
  | .Bite _ _ _ => true
  | .Spoon _ _ r f s => (mkRat 1 10 ≤ r && r ≤ mkRat 9 10) && ratiosOk f && ratiosOk s

/-- Every `Bite` has a non-empty trimmed name and command (spec tree
invariant, `template/validation.rs` check). -/
def bitesOk : Node → Bool
  | .Bite _ name command => !trim_is_empty name && !trim_is_empty command
  | .Spoon _ _ _ f s => bitesOk f && bitesOk s

/-- The spec §3 tree invariants.  "Every Split has exactly two children"
holds by construction of the `Node` type (a `Spoon` always carries
`first` and `second`), so it needs no separate conjunct. -/
@[reducible] def invariant (n : Node) : Prop :=
  (allIds n).Nodup ∧ ratiosOk n = true ∧ bitesOk n = true

/-- One layout-tree operation of spec §4.2, as invoked by the runtime and
editor (both call `split_bite` with `new_id = next_id(root)` and the
configured default command). -/
inductive Op where
  | split (target : Nat) (o : Orientation) (ratio : Rat) (command : String)
  | delete (target : Nat)
  | resize (target : Nat) (o : Orientation) (delta : Rat)
  | swap (target : Nat) (o : Orientation)

/-- Apply one operation to the tree, discarding the status result, with
the fresh id allocated by `next_id` as in `runtime.rs::split_active` and
`editor_keys.rs::split_at_cursor`. -/
def applyOp (n : Node) : Op → Node
  | .split target o ratio cmd =>
      (split_bite n target o ratio (next_id n) cmd).1
  | .delete target => (delete_bite n target).1
  | .resize target o delta => (resize_from_bite n target o delta).1
  | .swap target o => (swap_adjacent_bites n target o).1

/-- An operation is valid when the default command it supplies to a split
is non-blank (the configured `default_command`; spec §3 requires leaf
commands to be non-empty after trimming). -/
def Op.valid : Op → Bool
  | .split _ _ _ cmd => !trim_is_empty cmd
  | _ => true

/-- The claim's description of `split_leaf` as a tree transformation
(with the source's literal `"bite-"` name prefix): the first bite found
in a `first`-before-`second` search whose id is the target is replaced
by a `Spoon` with id `new_id + 1`, the clamped ratio, the original bite
as `first`, and a fresh bite `{ id := new_id, name := "bite-<new_id>",
command := default_command }` as `second`. -/
def split_leaf_spec (node : Node) (target_id : Nat)
    (orientation : Orientation) (ratio : Rat) (new_id : Nat)
    (default_command : String) : Node :=
  match node with
  | .Bite id name command =>
      if id = target_id then
        .Spoon (new_id + 1) orientation (clamp_ratio ratio)
          (.Bite id name command)
          (.Bite new_id ("bite-" ++ toString new_id) default_command)
      else .Bite id name command
  | .Spoon id o r f s =>
      if contains_bite f target_id then
        .Spoon id o r (split_leaf_spec f target_id orientation ratio new_id default_command) s
      else
        .Spoon id o r f (split_leaf_spec s target_id orientation ratio new_id default_command)

/-- There is a `Spoon` of the given orientation one of whose subtrees
contains the target bite (the condition under which
`resize_from_bite` reports success). -/
def hasMatchingSpoon : Node → Nat → Orientation → Bool
  | .Bite _ _ _, _, _ => false
  | .Spoon _ o _ f s, target, orientation =>
      (o == orientation && (contains_bite f target || contains_bite s target))
      || hasMatchingSpoon f target orientation
      || hasMatchingSpoon s target orientation

/-- The amended claim's description of `resize_from_leaf`: the
*outermost* `Spoon` whose orientation matches and one of whose subtrees
contains the target has its ratio set to `clamp_ratio (ratio + delta)`;
everything else is unchanged (both subtrees are descended into, without
the source's short-circuit). -/
def resize_outermost_spec (node : Node) (target_id : Nat)
    (orientation : Orientation) (delta : Rat) : Node :=
  match node with
  | .Bite id name command => .Bite id name command
  | .Spoon id o r f s =>
      if o = orientation ∧
          (contains_bite f target_id || contains_bite s target_id) = true then
        .Spoon id o (clamp_ratio (r + delta)) f s
      else
        .Spoon id o r (resize_outermost_spec f target_id orientation delta)
          (resize_outermost_spec s target_id orientation delta)

end Bites

namespace Panes

/-- `model.rs::Direction`. -/
inductive Direction where
  | Vertical
  | Horizontal
deriving DecidableEq, Repr

/-- `model.rs::Node` of the pane/split revision. -/
inductive Node where
  | Pane (id : Nat) (command : Option String)
  | Split (id : Nat) (direction : Direction) (ratio : Rat)
      (first : Node) (second : Node)
deriving DecidableEq, Repr

/-- `Node::id()`. -/
def Node.id : Node → Nat
  | .Pane i _ => i
  | .Split i _ _ _ _ => i

/-- `model.rs::Tab`. -/
structure Tab where
  name : String
  root : Node
deriving DecidableEq, Repr

/-- `model.rs::Layout`. -/
structure Layout where
  name : String
  tabs : List Tab
  active_tab : Nat
deriving DecidableEq, Repr

/-- `layout.rs::DeleteNodeError`. -/
inductive DeleteNodeError where
  | LastPane
  | NotFound
deriving DecidableEq, Repr

/-- All node ids in pre-order (the order `layout.rs::walk` visits). -/
def allIds : Node → List Nat
  | .Pane i _ => [i]
  | .Split i _ _ f s => i :: (allIds f ++ allIds s)

/-- `layout.rs::collect_panes`. -/
def collect_panes : Node → List Nat
  | .Pane i _ => [i]
  | .Split _ _ _ f s => collect_panes f ++ collect_panes s

/-- There is a pane (leaf) with the given id. -/
def containsPane : Node → Nat → Bool
  | .Pane i _, target => i == target
  | .Split _ _ _ f s, target => containsPane f target || containsPane s target

/-- `layout.rs::find_node`: first node (pane or split) with the id,
checking a split's own id before descending `first` then `second`. -/
def find_node (node : Node) (target_id : Nat) : Option Node :=
  match node with
  | .Pane id command =>
      if id = target_id then some (.Pane id command) else none
  | .Split id d r f s =>
      if id = target_id then some (.Split id d r f s)
      else (find_node f target_id).orElse (fun _ => find_node s target_id)

/-- `layout.rs::pane_count`. -/
def pane_count : Node → Nat
  | .Pane _ _ => 1
  | .Split _ _ _ f s => pane_count f + pane_count s

/-- `matches!(node, Node::Pane { .. })`. -/
def Node.isPane : Node → Bool
  | .Pane _ _ => true
  | .Split _ _ _ _ _ => false

/-- `layout.rs::delete_node_owned`. -/
def delete_node_owned (node : Node) (target_id : Nat) : Node × Bool :=
  match node with
  | .Pane id command => (.Pane id command, false)
  | .Split id d r f s =>
      if f.id = target_id then (s, true)
      else if s.id = target_id then (f, true)
      else
        let (f', okf) := delete_node_owned f target_id
        if okf then (.Split id d r f' s, true)
        else
          let (s', oks) := delete_node_owned s target_id
          (.Split id d r f' s', oks)

/-- `layout.rs::delete_node`, returning the updated tree together with
the `Result` (modelled as `Option DeleteNodeError`, `none` = `Ok`). -/
def delete_node (node : Node) (target_id : Nat) :
    Node × Option DeleteNodeError :=
  if pane_count node ≤ 1 then (node, some .LastPane)
  else if !((find_node node target_id).elim false Node.isPane) then
    (node, some .NotFound)
  else
    let (node', deleted) := delete_node_owned node target_id
    if deleted then (node', none) else (node', some .NotFound)

/-- The claim's description of the deletion step: the `Split` one of
whose direct children has the target id (the deleted leaf's parent) is
replaced by its other child, which keeps its own id while the `Split`'s
id is discarded; the search prefers a match at the children of the
current `Split`, then descends into the subtree containing the target
pane. -/
def delete_leaf_spec (node : Node) (target_id : Nat) : Node :=
  match node with
  | .Pane id command => .Pane id command
  | .Split id d r f s =>
      if f.id = target_id then s
      else if s.id = target_id then f
      else if containsPane f target_id then
        .Split id d r (delete_leaf_spec f target_id) s
      else
        .Split id d r f (delete_leaf_spec s target_id)

/-- `kdl::KdlValue`, restricted to the variants `template.rs` reads and
writes (`f64` floats modelled as `Rat`, integers as `Int`). -/
inductive KdlValueM where
  | str (s : String)
  | int (i : Int)
  | float (q : Rat)
  | bool (b : Bool)
deriving DecidableEq, Repr

/-- `kdl::KdlNode`: a name, ordered properties, and optional children
(`set_children` makes the children present; a node that never received
children has none). -/
inductive KdlNodeM where
  | mk (name : String) (props : List (String × KdlValueM))
      (children : Option (List KdlNodeM))

/-- Node name accessor. -/
def KdlNodeM.name : KdlNodeM → String
  | .mk n _ _ => n

/-- Node properties accessor. -/
def KdlNodeM.props : KdlNodeM → List (String × KdlValueM)
  | .mk _ p _ => p

/-- Node children accessor. -/
def KdlNodeM.children : KdlNodeM → Option (List KdlNodeM)
  | .mk _ _ c => c

/-- `KdlNode::get(key)`: the first property with the given key. -/
def kdl_get (node : KdlNodeM) (key : String) : Option KdlValueM :=
  (node.props.find? (fun p => p.1 == key)).map (fun p => p.2)

/-- `template.rs::node_string`. -/
def node_string (node : KdlNodeM) (key : String) : Option String :=
  (kdl_get node key).bind fun v =>
    match v with
    | .str s => some s
    | _ => none

/-- `template.rs::node_u64` (`as_integer` then `u64::try_from`, which on
our `Nat` model succeeds exactly for non-negative integers). -/
def node_u64 (node : KdlNodeM) (key : String) : Option Nat :=
  (kdl_get node key).bind fun v =>
    match v with
    | .int i => if 0 ≤ i then some i.toNat else none
    | _ => none

/-- `template.rs::node_f32`. -/
def node_f32 (node : KdlNodeM) (key : String) : Option Rat :=
  (kdl_get node key).bind fun v =>
    match v with
    | .int i => some (i : Rat)
    | .float q => some q
    | _ => none

/-- `template.rs::node_bool`. -/
def node_bool (node : KdlNodeM) (key : String) : Option Bool :=
  (kdl_get node key).bind fun v =>
    match v with
    | .bool b => some b
    | _ => none

/-- `template.rs::node_to_kdl`: panes and splits both serialize as a
`pane` node; a leaf writes its command only when present and non-blank;
a split writes only `split_direction` and its two children — it writes
neither its `ratio` nor any `id`. -/
def node_to_kdl : Node → KdlNodeM
  | .Pane _ command =>
      .mk "pane"
        (match command.filter (fun v => !trim_is_empty v) with
          | some cmd => [("command", .str cmd)]
          | none => [])
        none
  | .Split _ direction _ f s =>
      .mk "pane"
        [("split_direction",
          .str (match direction with
                | .Vertical => "vertical"
                | .Horizontal => "horizontal"))]
        (some [node_to_kdl f, node_to_kdl s])

/-- `template.rs::tab_to_kdl`. -/
def tab_to_kdl (tab : Tab) (active : Bool) : KdlNodeM :=
  .mk "tab"
    ([("name", .str tab.name)] ++ (if active then [("active", .bool true)] else []))
    (some [node_to_kdl tab.root])

/-- The `enumerate` loop of `template.rs::to_kdl_document` over the tabs. -/
def tabsToKdl : List Tab → Nat → Nat → List KdlNodeM
  | [], _, _ => []
  | t :: rest, idx, active =>
      tab_to_kdl t (idx = active) :: tabsToKdl rest (idx + 1) active

/-- `template.rs::to_kdl_document` (a `KdlDocument` is its node list). -/
def to_kdl_document (layout : Layout) : List KdlNodeM :=
  [.mk "layout" [("name", .str layout.name)]
    (some (tabsToKdl layout.tabs 0 layout.active_tab))]

/-- `template.rs::validate_name`.  Rust checks the byte length and
`is_ascii_alphanumeric`; on strings passing the charset check the two
length notions agree, and on strings failing it both reject. -/
def validate_name (name : String) : Except String Unit :=
  if name.isEmpty || name.length > 64 then
    .error "name must be 1..=64 chars"
  else if !(name.data.all fun ch => ch.isAlphanum || ch = '-' || ch = '_') then
    .error "name supports only alphanumerics, dash and underscore"
  else
    .ok ()

/-- `template.rs::validate_node`: the `HashSet` of already-seen ids is
modelled as the list of ids inserted so far. -/
def validate_node (node : Node) (ids : List Nat) : Except String (List Nat) :=
  if node.id ∈ ids then .error "node id must be unique"
  else
    match node with
    | .Pane id command =>
        if command.elim false (fun v => trim_is_empty v) then
          .error "pane command must not be empty string"
        else .ok (id :: ids)
    | .Split id _ ratio f s =>
        if !(mkRat 1 10 ≤ ratio && ratio ≤ mkRat 9 10) then
          .error "split ratio must be in the clamp interval"
        else do
          let ids' ← validate_node f (id :: ids)
          validate_node s ids'

/-- The per-tab loop of `template.rs::validate_layout`. -/
def validate_tabs (tabs : List Tab) (ids : List Nat) :
    Except String (List Nat) :=
  match tabs with
  | [] => .ok ids
  | t :: rest =>
      if trim_is_empty t.name then .error "tab name must not be empty"
      else do
        let ids' ← validate_node t.root ids
        validate_tabs rest ids'

/-- `template.rs::validate_layout`. -/
def validate_layout (layout : Layout) : Except String Unit := do
  let _ ← validate_name layout.name
  if layout.tabs.isEmpty then .error "layout must contain at least one tab"
  else if layout.tabs.length ≤ layout.active_tab then
    .error "active_tab out of range"
  else do
    let _ ← validate_tabs layout.tabs []
    .ok ()

/-- Every pane command is `None` or non-blank (the part of
`validate_node` that constrains commands; a validated layout satisfies
it on every tab root). -/
def commandsOk : Node → Bool
  | .Pane _ none => true
  | .Pane _ (some c) => !trim_is_empty c
  | .Split _ _ _ f s => commandsOk f && commandsOk s

/-- `template.rs::node_from_kdl`, with the `next_id` counter threaded
explicitly.  An explicit `id` property at or above the counter bumps the
counter past it; otherwise `alloc_id` hands out the counter value. -/
def node_from_kdl (node : KdlNodeM) (next : Nat) :
    Except String (Node × Nat) :=
  if node.name ≠ "pane" then .error "expected pane node"
  else
    let idnext : Nat × Nat :=
      match node_u64 node "id" with
      | some e => (e, if next ≤ e then e + 1 else next)
      | none => (next, next + 1)
    match h : (node.children.getD []).filter (fun c => c.name == "pane") with
    | [] =>
        let command := (node_string node "command").filter
          (fun v => !trim_is_empty v)
        .ok (.Pane idnext.1 command, idnext.2)
    | a :: rest =>
        match node_string node "split_direction" with
        | none => .error "split pane must set split_direction"
        | some direction_text =>
            if hd : direction_text = "vertical" ∨ direction_text = "horizontal" then
              let direction : Direction :=
                if direction_text = "vertical" then .Vertical else .Horizontal
              match h2 : rest with
              | [b] => do
                  let ratio := (node_f32 node "ratio").getD (mkRat 1 2)
                  let (f, n2) ← node_from_kdl a idnext.2
                  let (s, n3) ← node_from_kdl b n2
                  .ok (.Split idnext.1 direction ratio f s, n3)
              | _ => .error "split pane must have exactly two child panes"
            else .error "invalid split_direction"
termination_by sizeOf node
decreasing_by
  · have hmem : a ∈ (node.children.getD []).filter (fun c => c.name == "pane") := by
      rw [h]; exact List.mem_cons_self a [b]
    have hmem' := List.mem_of_mem_filter hmem
    have hlt := List.sizeOf_lt_of_mem hmem'
    cases node with
    | mk nm pr ch =>
      cases ch with
      | none => simp [KdlNodeM.children] at hmem'
      | some l =>
        simp only [KdlNodeM.children, Option.getD] at hlt
        simp only [KdlNodeM.mk.sizeOf_spec, Option.some.sizeOf_spec]
        omega
  · have hmem : b ∈ (node.children.getD []).filter (fun c => c.name == "pane") := by
      rw [h]; exact List.mem_cons_of_mem a (List.mem_cons_self b [])
    have hmem' := List.mem_of_mem_filter hmem
    have hlt := List.sizeOf_lt_of_mem hmem'
    cases node with
    | mk nm pr ch =>
      cases ch with
      | none => simp [KdlNodeM.children] at hmem'
      | some l =>
        simp only [KdlNodeM.children, Option.getD] at hlt
        simp only [KdlNodeM.mk.sizeOf_spec, Option.some.sizeOf_spec]
        omega

/-- `template.rs::tab_from_kdl`. -/
def tab_from_kdl (node : KdlNodeM) (next : Nat) (index : Nat) :
    Except String (Tab × Nat) :=
  if node.name ≠ "tab" then .error "expected tab node"
  else
    let tab_name := (node_string node "name").getD ("tab-" ++ toString (index + 1))
    match node.children.bind (fun l => l.find? (fun c => c.name == "pane")) with
    | none => .error "tab node must contain a root pane"
    | some root_node => do
        let (root, next') ← node_from_kdl root_node next
        .ok (⟨tab_name, root⟩, next')

/-- The tab loop of `template.rs::from_kdl_document` (indices and the
`next_id` counter threaded explicitly). -/
def tabs_from_kdl (nodes : List KdlNodeM) (next : Nat) (index : Nat) :
    Except String (List Tab × Nat) :=
  match nodes with
  | [] => .ok ([], next)
  | n :: rest => do
      let (tab, next') ← tab_from_kdl n next index
      let (tabs, next'') ← tabs_from_kdl rest next' (index + 1)
      .ok (tab :: tabs, next'')

/-- The `active` scan of `template.rs::from_kdl_document`: the last tab
node carrying `active=true` wins; the accumulator starts at 0. -/
def activeScan (nodes : List KdlNodeM) (index : Nat) (acc : Nat) : Nat :=
  match nodes with
  | [] => acc
  | n :: rest =>
      activeScan rest (index + 1)
        (if node_bool n "active" = some true then index else acc)

/-- `template.rs::from_kdl_document`. -/
def from_kdl_document (doc : List KdlNodeM) : Except String Layout :=
  match doc.find? (fun n => n.name == "layout") with
  | none => .error "missing layout root node"
  | some layout_node =>
      match layout_node.children with
      | none => .error "layout node must have children"
      | some children =>
          let tab_nodes := children.filter (fun n => n.name == "tab")
          if tab_nodes.isEmpty then
            .error "layout must contain at least one tab"
          else do
            let (tabs, _) ← tabs_from_kdl tab_nodes 1 0
            let active_tab := activeScan tab_nodes 0 0
            let layout : Layout :=
              { name := (node_string layout_node "name").getD "default",
                tabs := tabs,
                active_tab := if tabs.length ≤ active_tab then 0 else active_tab }
            let _ ← validate_layout layout
            .ok layout

/-- What the kdl round trip actually produces on a node: ids are
reallocated pre-order from the running counter and every split ratio
becomes the default `0.5`; directions, structure and (validated)
commands are preserved. -/
def reassignNode (node : Node) (next : Nat) : Node × Nat :=
  match node with
  | .Pane _ command => (.Pane next command, next + 1)
  | .Split _ d _ f s =>
      let (f', n1) := reassignNode f (next + 1)
      let (s', n2) := reassignNode s n1
      (.Split next d (mkRat 1 2) f' s', n2)

/-- `reassignNode` across the tab list. -/
def reassignTabs (tabs : List Tab) (next : Nat) : List Tab × Nat :=
  match tabs with
  | [] => ([], next)
  | t :: rest =>
      let (root', n1) := reassignNode t.root next
      let (rest', n2) := reassignTabs rest n1
      (⟨t.name, root'⟩ :: rest', n2)

/-- What the kdl round trip actually produces on a layout. -/
def normalizeLayout (layout : Layout) : Layout :=
  { name := layout.name,
    tabs := (reassignTabs layout.tabs 1).1,
    active_tab := layout.active_tab }

end Panes

deriving instance DecidableEq for Except

namespace Bites

/-- `model::Template` of the bite/spoon revision (field `layout` as used
by `template/validation.rs` and `runtime.rs`). -/
structure Template where
  name : String
  layout : Node
deriving DecidableEq, Repr

/-- `template/validation.rs::validate_store_name`.  Rust checks the byte
length and `is_ascii_alphanumeric`; on strings passing the charset check
the two length notions agree, and on strings failing it both reject. -/
def validate_store_name (name : String) : Except String Unit :=
  if name.isEmpty || name.length > 64 then
    .error "name must be 1..=64 chars"
  else if !(name.data.all fun ch => ch.isAlphanum || ch = '-' || ch = '_') then
    .error "name supports only alphanumerics, dash and underscore"
  else
    .ok ()

/-- `template/validation.rs::validate_node` (the `HashSet` of seen ids
modelled as the list of ids inserted so far). -/
def validate_node (node : Node) (ids : List Nat) : Except String (List Nat) :=
  if node.id ∈ ids then .error "node id must be unique"
  else
    match node with
    | .Bite id name command =>
        if trim_is_empty name then .error "bite name must not be empty"
        else if trim_is_empty command then .error "bite command must not be empty"
        else .ok (id :: ids)
    | .Spoon id _ ratio f s =>
        if !(mkRat 1 10 ≤ ratio && ratio ≤ mkRat 9 10) then
          .error "spoon ratio must be in the clamp interval"
        else do
          let ids' ← validate_node f (id :: ids)
          validate_node s ids'

/-- `template/validation.rs::validate_template`. -/
def validate_template (template : Template) : Except String Unit := do
  let _ ← validate_store_name template.name
  let _ ← validate_node template.layout []
  .ok ()

/-- The state of the on-disk file a load operation reads: absent,
present but not valid JSON for a `Template`, or present and parsing to
the given template (`serde_json::from_str` modelled by its result). -/
inductive FsFile where
  | missing
  | unparsable
  | parsed (t : Template)
deriving DecidableEq

/-- `Modelled from the spec:` `model::default_template` is absent from
`src/` (the `model.rs` present belongs to the pane/split revision).
Spec §3: a template is created with a single leaf with defaults
`name = "main"`, `command = "bash"` (the default shell), `id = 1`. -/
def default_template : Template :=
  { name := "default", layout := .Bite 1 "main" "bash" }

/-- `template/io.rs::load_template`: validate the name; a missing file
yields the default template; otherwise read, parse and validate. -/
def load_template (name : String) (file : FsFile) : Except String Template := do
  let _ ← validate_store_name name
  match file with
  | .missing => .ok default_template
  | .unparsable => .error "parse error"
  | .parsed t => do
      let _ ← validate_template t
      .ok t

/-- `template/io.rs::load_state`: validate the name; read the file
(`fs::read_to_string` fails on a missing file), parse and validate —
there is no missing-file default here. -/
def load_state (name : String) (file : FsFile) : Except String Template := do
  let _ ← validate_store_name name
  match file with
  | .missing => .error "read error"
  | .unparsable => .error "parse error"
  | .parsed t => do
      let _ ← validate_template t
      .ok t

end Bites

namespace Keys

/-- `crossterm::event::KeyCode`, restricted to the variants the sources
construct or match on. -/
inductive KeyCodeM where
  | Char (c : Char)
  | Enter
  | Esc
  | Tab
  | BackTab
  | Backspace
  | Delete
  | Home
  | End
  | PageUp
  | PageDown
  | Insert
  | Left
  | Right
  | Up
  | Down
  | F (n : Nat)
deriving DecidableEq, Repr

/-- `crossterm::event::KeyModifiers` (the three modifier bits the
sources use). -/
structure KeyModifiersM where
  ctrl : Bool
  alt : Bool
  shift : Bool
deriving DecidableEq, Repr

/-- A key event: code plus modifiers. -/
structure KeyEventM where
  code : KeyCodeM
  modifiers : KeyModifiersM
deriving DecidableEq, Repr

/-- `keybind.rs::KeyBinding`. -/
structure KeyBinding where
  code : KeyCodeM
  modifiers : KeyModifiersM
deriving DecidableEq, Repr

/-- `keybind.rs::normalize`: `BackTab` becomes `Tab` + `Shift`. -/
def normalize (code : KeyCodeM) (modifiers : KeyModifiersM) :
    KeyCodeM × KeyModifiersM :=
  if code = .BackTab then (.Tab, { modifiers with shift := true })
  else (code, modifiers)

/-- `KeyBinding::matches`. -/
def KeyBinding.matches (b : KeyBinding) (ev : KeyEventM) : Bool :=
  decide (normalize b.code b.modifiers = normalize ev.code ev.modifiers)

end Keys

namespace Rt

open Keys

/-- The runtime `Action` enum, as matched on by `runtime.rs::handle_action`
(the `action.rs` present in `src/` belongs to the editor-centric
revision; these variants are the ones `runtime.rs` constructs and
consumes). -/
inductive Action where
  | SplitVertical
  | SplitHorizontal
  | ResizeLeft
  | ResizeRight
  | ResizeUp
  | ResizeDown
  | SwapVertical
  | SwapHorizontal
  | SaveState
  | RestoreState
  | FocusNext
  | Quit
deriving DecidableEq, Repr

/-- `runtime.rs::PromptMode`. -/
inductive PromptMode where
  | Save
  | Restore
deriving DecidableEq, Repr

/-- `runtime.rs::InputPrompt`. -/
structure InputPrompt where
  label : String
  buffer : String
  mode : PromptMode
deriving DecidableEq, Repr

/-- Rust `String::pop`: drop the last character. -/
def popChar (s : String) : String :=
  ⟨s.data.dropLast⟩

/-- Rust `str::trim`: drop leading and trailing whitespace characters. -/
def rust_trim (s : String) : String :=
  ⟨((s.data.dropWhile Char.isWhitespace).reverse.dropWhile
      Char.isWhitespace).reverse⟩

/-- The file-system side effect a committed prompt requests
(`save_state` / `load_state` with the trimmed buffer as name); the
actual file operations are modelled separately (`Bites.load_state`). -/
inductive PromptEffect where
  | saveTo (name : String)
  | restoreFrom (name : String)
deriving DecidableEq, Repr

/-- `runtime.rs::handle_prompt_key`, as a function of the prompt and the
key: the updated prompt, whether the prompt closes, and the requested
file effect.  `Enter` commits the trimmed buffer when non-empty and
closes; `Esc` closes; `Backspace` pops; a `Ctrl`-modified character is
ignored; any other character is appended to the buffer. -/
def handle_prompt_key (prompt : InputPrompt) (key : KeyEventM) :
    InputPrompt × Bool × Option PromptEffect :=
  match key.code with
  | .Enter =>
      let name := rust_trim prompt.buffer
      (prompt, true,
        if name.isEmpty then none
        else some (match prompt.mode with
          | .Save => .saveTo name
          | .Restore => .restoreFrom name))
  | .Esc => (prompt, true, none)
  | .Backspace => ({ prompt with buffer := popChar prompt.buffer }, false, none)
  | .Char c =>
      if key.modifiers.ctrl then (prompt, false, none)
      else ({ prompt with buffer := prompt.buffer.push c }, false, none)
  | _ => (prompt, false, none)

/-- The key-dispatch state of `runtime.rs::RuntimeApp`: the open prompt,
if any, and the configured bindings in iteration order.  The layout tree
and the pane map, which the dispatched actions mutate through the
`Bites` operations embedded above, do not influence dispatch and are
not tracked here. -/
structure RtState where
  prompt : Option InputPrompt
  actions : List (KeyBinding × Action)

/-- `runtime/actions.rs::RuntimeApp::is_quit_key`: some configured
binding maps to `Quit` and matches the event. -/
def is_quit_key (actions : List (KeyBinding × Action)) (key : KeyEventM) : Bool :=
  actions.any fun ba => ba.2 == Action.Quit && ba.1.matches key

/-- `runtime.rs::handle_action`, projected to the dispatch state: `Quit`
returns `true` (exit the loop); `SaveState` / `RestoreState` open the
save / restore prompt; every other action performs its layout work (the
`Bites` operations) and returns `false`. -/
def handle_action (a : Action) : Bool × Option InputPrompt :=
  match a with
  | .SaveState => (false, some ⟨"保存名", "", .Save⟩)
  | .RestoreState => (false, some ⟨"復元名", "", .Restore⟩)
  | .Quit => (true, none)
  | _ => (false, none)

/-- The outcome of one `runtime.rs::handle_key` call: the `Ok(bool)`
result (`quit`), the prompt state afterwards, the requested file effect,
the action dispatched (if any), and whether the key falls through to be
forwarded to the active pane. -/
structure KeyOutcome where
  quit : Bool
  prompt : Option InputPrompt
  effect : Option PromptEffect
  dispatched : Option Action
  forwarded : Bool
deriving DecidableEq, Repr

/-- `runtime.rs::handle_key`: when a prompt is open the key goes to
`handle_prompt_key` and the function returns `Ok(false)`; otherwise the
first matching binding's action is handled; otherwise the key is
forwarded to the active pane. -/
def handle_key (st : RtState) (key : KeyEventM) : KeyOutcome :=
  match st.prompt with
  | some p =>
      let (p', close, eff) := handle_prompt_key p key
      { quit := false, prompt := if close then none else some p',
        effect := eff, dispatched := none, forwarded := false }
  | none =>
      match st.actions.find? (fun ba => ba.1.matches key) with
      | some ba =>
          let (q, pr) := handle_action ba.2
          { quit := q, prompt := pr, effect := none,
            dispatched := some ba.2, forwarded := false }
      | none =>
          { quit := false, prompt := none, effect := none,
            dispatched := none, forwarded := true }

end Rt

namespace Editor

open Keys

/-- `editor/editor_input.rs::InputKind`. -/
inductive InputKind where
  | Name
  | Command
deriving DecidableEq, Repr

/-- `editor/editor_input.rs::InputMode`. -/
structure InputMode where
  kind : InputKind
  buffer : String
deriving DecidableEq, Repr

/-- Set the name of the first bite with the target id, routed as
`layout::search::find_bite_mut` routes (descend `first` when it contains
the target, else `second`); no-op when no bite has the id. -/
def set_bite_name (node : Bites.Node) (target : Nat) (v : String) : Bites.Node :=
  match node with
  | .Bite id name command =>
      if id = target then .Bite id v command else .Bite id name command
  | .Spoon id o r f s =>
      if Bites.contains_bite f target then .Spoon id o r (set_bite_name f target v) s
      else .Spoon id o r f (set_bite_name s target v)

/-- Set the command of the first bite with the target id; see
`set_bite_name`. -/
def set_bite_command (node : Bites.Node) (target : Nat) (v : String) : Bites.Node :=
  match node with
  | .Bite id name command =>
      if id = target then .Bite id name v else .Bite id name command
  | .Spoon id o r f s =>
      if Bites.contains_bite f target then .Spoon id o r (set_bite_command f target v) s
      else .Spoon id o r f (set_bite_command s target v)

/-- `editor/editor_keys.rs::EditorApp::apply_input`: if the selected id
resolves to a bite and the buffer is non-empty, the buffer (as typed,
untrimmed) becomes the bite's name or command; an empty buffer leaves
the tree unchanged. -/
def apply_input (layout : Bites.Node) (selected : Nat) (input : InputMode) :
    Bites.Node :=
  match input.kind with
  | .Name =>
      if input.buffer.isEmpty then layout
      else set_bite_name layout selected input.buffer
  | .Command =>
      if input.buffer.isEmpty then layout
      else set_bite_command layout selected input.buffer

/-- `editor/editor_keys.rs::EditorApp::handle_input_key`, as a function
of the tree, the selected id, the input mode and the key: the updated
tree, the updated input mode, and whether the prompt closes. -/
def handle_input_key (layout : Bites.Node) (selected : Nat)
    (input : InputMode) (key : KeyEventM) :
    Bites.Node × InputMode × Bool :=
  match key.code with
  | .Enter => (apply_input layout selected input, input, true)
  | .Esc => (layout, input, true)
  | .Backspace => (layout, { input with buffer := Rt.popChar input.buffer }, false)
  | .Char c =>
      if key.modifiers.ctrl then (layout, input, false)
      else (layout, { input with buffer := input.buffer.push c }, false)
  | _ => (layout, input, false)

end Editor

/-! ## Helper lemmas for the bite/spoon layout operations -/

namespace Bites

theorem split_leaf_spec_not_found {n : Node} {target : Nat}
    (h : contains_bite n target = false) (o : Orientation) (r : Rat)
    (nid : Nat) (cmd : String) :
    split_leaf_spec n target o r nid cmd = n := by
  induction n with
  | Bite id name command =>
      simp only [contains_bite, beq_eq_false_iff_ne, ne_eq] at h
      simp [split_leaf_spec, h]
  | Spoon id o' r' f s ihf ihs =>
      simp only [contains_bite, Bool.or_eq_false_iff] at h
      simp [split_leaf_spec, h.1, ihs h.2]

theorem split_bite_eq_spec (n : Node) (target : Nat) (o : Orientation)
    (r : Rat) (nid : Nat) (cmd : String) :
    split_bite n target o r nid cmd =
      (split_leaf_spec n target o r nid cmd, contains_bite n target) := by
  induction n with
  | Bite id name command =>
      by_cases h : id = target <;>
        simp [split_bite, split_leaf_spec, contains_bite, h]
  | Spoon id o' r' f s ihf ihs =>
      by_cases hf : contains_bite f target
      · simp [split_bite, split_leaf_spec, contains_bite, ihf, ihs, hf]
      · simp only [Bool.not_eq_true] at hf
        simp [split_bite, split_leaf_spec, contains_bite, ihf, ihs, hf,
          split_leaf_spec_not_found hf]

end Bites

/-! ## C10 -/

/-- C10: `find_bite_at` at a leaf returns the leaf's id without checking
that `(x, y)` lies inside the rectangle; in particular, for a
single-leaf tree it returns the leaf's id for every coordinate pair,
including points outside the given rect. -/
theorem c10_find_bite_at_leaf_ignores_rect (id : Nat) (name command : String)
    (rect : Bites.Rect) (x y : Nat) :
    Bites.find_bite_at (.Bite id name command) rect x y = some id := by
  rfl

/-! ## C4 -/

/-- C4 (counterexample): on the spec's own scenario — the default tree
(one leaf `Bite 1 "main" "bash"`), split vertical with ratio 0.5 and
`new_id = 2` — the new second leaf is named `"bite-2"`, not `"leaf-2"`
as the claim states, so the resulting pair differs from the claimed
one. -/
theorem c4_split_name_counterexample :
    Bites.split_bite (.Bite 1 "main" "bash") 1 .Vertical (mkRat 1 2) 2 "bash" ≠
      (.Spoon 3 .Vertical (mkRat 1 2) (.Bite 1 "main" "bash")
        (.Bite 2 "leaf-2" "bash"), true) := by
  decide

/-- C4 (amended: the new leaf's name is `"bite-<new_id>"`, the source's
literal prefix, rather than the claim's `"leaf-<new_id>"`):
`split_leaf(root, target_id, orientation, ratio, new_id, default_command)`
replaces the (first found) leaf with id `target_id` by a Split whose
first child is the original leaf and whose second child is the new leaf
`{ id := new_id, name := "bite-<new_id>", command := default_command }`;
the Split's own id is `new_id + 1`, the stored ratio is the clamped
ratio (see `split_leaf_spec`), and the returned boolean is true exactly
when such a replacement occurred, i.e. when the tree contains a leaf
with id `target_id`. -/
theorem c4_split_leaf_characterization (n : Bites.Node) (target : Nat)
    (o : Bites.Orientation) (r : Rat) (nid : Nat) (cmd : String) :
    Bites.split_bite n target o r nid cmd =
      (Bites.split_leaf_spec n target o r nid cmd,
        Bites.contains_bite n target) :=
  Bites.split_bite_eq_spec n target o r nid cmd

/-! ## C6 -/

namespace Bites

theorem mem_allIds_of_contains {n : Node} {t : Nat}
    (h : contains_bite n t = true) : t ∈ allIds n := by
  induction n with
  | Bite id name command =>
      simp only [contains_bite, beq_iff_eq] at h
      simp [allIds, h]
  | Spoon id o r f s ihf ihs =>
      simp only [contains_bite, Bool.or_eq_true] at h
      rcases h with h | h
      · simp [allIds, List.mem_append, ihf h]
      · simp [allIds, List.mem_append, ihs h]

theorem hasMatchingSpoon_false_of_not_contains {n : Node} {t : Nat}
    (h : contains_bite n t = false) (o : Orientation) :
    hasMatchingSpoon n t o = false := by
  induction n with
  | Bite id name command => rfl
  | Spoon id o' r f s ihf ihs =>
      simp only [contains_bite, Bool.or_eq_false_iff] at h
      simp [hasMatchingSpoon, h.1, h.2, ihf h.1, ihs h.2]

theorem contains_of_hasMatchingSpoon {n : Node} {t : Nat} {o : Orientation}
    (h : hasMatchingSpoon n t o = true) : contains_bite n t = true := by
  induction n with
  | Bite id name command => simp [hasMatchingSpoon] at h
  | Spoon id o' r f s ihf ihs =>
      simp only [hasMatchingSpoon, Bool.or_eq_true, Bool.and_eq_true] at h
      simp only [contains_bite, Bool.or_eq_true]
      rcases h with (⟨_, h⟩ | h) | h
      · simpa using h
      · exact Or.inl (ihf h)
      · exact Or.inr (ihs h)

theorem resize_spec_not_contains {n : Node} {t : Nat}
    (h : contains_bite n t = false) (o : Orientation) (d : Rat) :
    resize_outermost_spec n t o d = n := by
  induction n with
  | Bite id name command => rfl
  | Spoon id o' r f s ihf ihs =>
      simp only [contains_bite, Bool.or_eq_false_iff] at h
      simp [resize_outermost_spec, h.1, h.2, ihf h.1, ihs h.2]

theorem nodup_spoon_parts {id : Nat} {o : Orientation} {r : Rat}
    {f s : Node} (h : (allIds (.Spoon id o r f s)).Nodup) :
    (allIds f).Nodup ∧ (allIds s).Nodup ∧
      (allIds f).Disjoint (allIds s) := by
  simp only [allIds, List.nodup_cons, List.nodup_append] at h
  exact ⟨h.2.1, h.2.2.1, h.2.2.2⟩

theorem resize_eq_spec {n : Node} (t : Nat) (o : Orientation) (d : Rat)
    (hn : (allIds n).Nodup) :
    resize_from_bite_inner n t o d =
      (resize_outermost_spec n t o d, hasMatchingSpoon n t o) := by
  induction n with
  | Bite id name command => rfl
  | Spoon id o' r f s ihf ihs =>
      obtain ⟨ndf, nds, hdisj⟩ := nodup_spoon_parts hn
      have ihf' := ihf ndf
      have ihs' := ihs nds
      by_cases ho : o' = o
      · by_cases hc : (contains_bite f t || contains_bite s t) = true
        · simp [resize_from_bite_inner, resize_outermost_spec,
            hasMatchingSpoon, ho, hc]
        · simp only [Bool.or_eq_true, not_or, Bool.not_eq_true] at hc
          simp [resize_from_bite_inner, resize_outermost_spec,
            hasMatchingSpoon, ho, hc.1, hc.2, ihf', ihs',
            hasMatchingSpoon_false_of_not_contains hc.1,
            hasMatchingSpoon_false_of_not_contains hc.2,
            resize_spec_not_contains hc.1,
            resize_spec_not_contains hc.2]
      · by_cases hmf : hasMatchingSpoon f t o = true
        · have hcf := contains_of_hasMatchingSpoon hmf
          have hcs : contains_bite s t = false := by
            by_contra hcs
            simp only [Bool.not_eq_false] at hcs
            exact hdisj (mem_allIds_of_contains hcf)
              (mem_allIds_of_contains hcs)
          simp [resize_from_bite_inner, resize_outermost_spec,
            hasMatchingSpoon, ho, ihf', ihs', hmf,
            hasMatchingSpoon_false_of_not_contains hcs,
            resize_spec_not_contains hcs]
        · simp only [Bool.not_eq_true] at hmf
          simp [resize_from_bite_inner, resize_outermost_spec,
            hasMatchingSpoon, ho, ihf', ihs', hmf]

end Bites

/-- C6 (counterexample): in the tree
`Spoon(10, V, 0.5, Spoon(20, V, 0.5, Bite 1, Bite 2), Bite 3)` both
vertical Splits contain leaf 1, and `resize_from_leaf(_, 1, Vertical, 0.2)`
updates the *outermost* Split (id 10, ratio becomes 0.7) while the
deepest matching ancestor (id 20) keeps ratio 0.5 — not, as the claim
states, the innermost one. -/
theorem c6_resize_counterexample :
    Bites.resize_from_bite
        (.Spoon 10 .Vertical (mkRat 1 2)
          (.Spoon 20 .Vertical (mkRat 1 2) (.Bite 1 "a" "sh") (.Bite 2 "b" "sh"))
          (.Bite 3 "c" "sh")) 1 .Vertical (mkRat 1 5) =
      (.Spoon 10 .Vertical (mkRat 7 10)
        (.Spoon 20 .Vertical (mkRat 1 2) (.Bite 1 "a" "sh") (.Bite 2 "b" "sh"))
        (.Bite 3 "c" "sh"), true) ∧
    Bites.resize_from_bite
        (.Spoon 10 .Vertical (mkRat 1 2)
          (.Spoon 20 .Vertical (mkRat 1 2) (.Bite 1 "a" "sh") (.Bite 2 "b" "sh"))
          (.Bite 3 "c" "sh")) 1 .Vertical (mkRat 1 5) ≠
      (.Spoon 10 .Vertical (mkRat 1 2)
        (.Spoon 20 .Vertical (mkRat 7 10) (.Bite 1 "a" "sh") (.Bite 2 "b" "sh"))
        (.Bite 3 "c" "sh"), true) := by
  have h : Bites.resize_from_bite
      (.Spoon 10 .Vertical (mkRat 1 2)
        (.Spoon 20 .Vertical (mkRat 1 2) (.Bite 1 "a" "sh") (.Bite 2 "b" "sh"))
        (.Bite 3 "c" "sh")) 1 .Vertical (mkRat 1 5) =
      (.Spoon 10 .Vertical (mkRat 7 10)
        (.Spoon 20 .Vertical (mkRat 1 2) (.Bite 1 "a" "sh") (.Bite 2 "b" "sh"))
        (.Bite 3 "c" "sh"), true) := by
    norm_num [Bites.resize_from_bite, Bites.resize_from_bite_inner,
      Bites.contains_bite, Bites.clamp_ratio, Rat.add_def]
  exact ⟨h, by rw [h]; decide⟩

/-- C6 (amended: the *outermost*, not innermost, matching ancestor is
updated): for every tree with unique node ids,
`resize_from_leaf(root, target_id, orientation, delta)` sets the ratio
of the outermost Split whose orientation equals the given orientation
and one of whose subtrees contains `target_id` to
`clamp_ratio(ratio + delta)`, leaving everything else unchanged
(see `resize_outermost_spec`), and returns whether such a Split
exists. -/
theorem c6_resize_outermost (n : Bites.Node) (target : Nat)
    (o : Bites.Orientation) (delta : Rat)
    (hn : (Bites.allIds n).Nodup) :
    Bites.resize_from_bite n target o delta =
      (Bites.resize_outermost_spec n target o delta,
        Bites.hasMatchingSpoon n target o) :=
  Bites.resize_eq_spec target o delta hn

/-- C6 witness: the amended theorem applied to the nested
two-vertical-split tree. -/
theorem c6_resize_outermost_witness :
    (Bites.allIds
        (.Spoon 10 .Vertical (mkRat 1 2)
          (.Spoon 20 .Vertical (mkRat 1 2) (.Bite 1 "a" "sh") (.Bite 2 "b" "sh"))
          (.Bite 3 "c" "sh"))).Nodup ∧
    Bites.resize_from_bite
        (.Spoon 10 .Vertical (mkRat 1 2)
          (.Spoon 20 .Vertical (mkRat 1 2) (.Bite 1 "a" "sh") (.Bite 2 "b" "sh"))
          (.Bite 3 "c" "sh")) 1 .Vertical (mkRat 1 5) =
      (Bites.resize_outermost_spec
          (.Spoon 10 .Vertical (mkRat 1 2)
            (.Spoon 20 .Vertical (mkRat 1 2) (.Bite 1 "a" "sh") (.Bite 2 "b" "sh"))
            (.Bite 3 "c" "sh")) 1 .Vertical (mkRat 1 5),
        Bites.hasMatchingSpoon
          (.Spoon 10 .Vertical (mkRat 1 2)
            (.Spoon 20 .Vertical (mkRat 1 2) (.Bite 1 "a" "sh") (.Bite 2 "b" "sh"))
            (.Bite 3 "c" "sh")) 1 .Vertical) :=
  ⟨by decide, c6_resize_outermost _ 1 .Vertical (mkRat 1 5) (by decide)⟩

/-! ## C5 -/

namespace Panes

theorem mem_allIds_of_containsPane {n : Node} {t : Nat}
    (h : containsPane n t = true) : t ∈ allIds n := by
  induction n with
  | Pane id command =>
      simp only [containsPane, beq_iff_eq] at h
      simp [allIds, h]
  | Split id d r f s ihf ihs =>
      simp only [containsPane, Bool.or_eq_true] at h
      rcases h with h | h
      · simp [allIds, List.mem_append, ihf h]
      · simp [allIds, List.mem_append, ihs h]

theorem find_node_none_of_not_mem {n : Node} {t : Nat}
    (h : t ∉ allIds n) : find_node n t = none := by
  induction n with
  | Pane id command =>
      simp only [allIds, List.mem_singleton] at h
      simp [find_node, Ne.symm h]
  | Split id d r f s ihf ihs =>
      simp only [allIds, List.mem_cons, List.mem_append, not_or] at h
      simp [find_node, Ne.symm h.1, ihf h.2.1, ihs h.2.2, Option.orElse]

theorem split_nodup_parts {id : Nat} {d : Direction} {r : Rat}
    {f s : Node} (h : (allIds (.Split id d r f s)).Nodup) :
    (allIds f).Nodup ∧ (allIds s).Nodup ∧
      (allIds f).Disjoint (allIds s) ∧ id ∉ allIds f ∧ id ∉ allIds s := by
  simp only [allIds, List.nodup_cons, List.nodup_append, List.mem_append,
    not_or] at h
  exact ⟨h.2.1, h.2.2.1, h.2.2.2, h.1.1, h.1.2⟩

theorem pane_count_pos (n : Node) : 1 ≤ pane_count n := by
  induction n with
  | Pane id command => simp [pane_count]
  | Split id d r f s ihf ihs => simp [pane_count]; omega

theorem find_node_not_pane_of_not_contains {n : Node} {t : Nat}
    (h : containsPane n t = false) :
    (find_node n t).elim false Node.isPane = false := by
  induction n with
  | Pane id command =>
      simp only [containsPane, beq_eq_false_iff_ne, ne_eq] at h
      simp [find_node, h]
  | Split id d r f s ihf ihs =>
      simp only [containsPane, Bool.or_eq_false_iff] at h
      have hf := ihf h.1
      have hs := ihs h.2
      by_cases hid : id = t
      · simp [find_node, hid, Node.isPane]
      · simp only [find_node, hid, if_false]
        cases hff : find_node f t with
        | none => simpa [Option.orElse, hff] using hs
        | some m =>
            rw [hff] at hf
            simpa [Option.orElse, hff] using hf

theorem find_node_is_pane_of_contains {n : Node} {t : Nat}
    (hn : (allIds n).Nodup) (h : containsPane n t = true) :
    (find_node n t).elim false Node.isPane = true := by
  induction n with
  | Pane id command =>
      simp only [containsPane, beq_iff_eq] at h
      simp [find_node, h, Node.isPane]
  | Split id d r f s ihf ihs =>
      obtain ⟨ndf, nds, hdisj, hidf, hids⟩ := split_nodup_parts hn
      simp only [containsPane, Bool.or_eq_true] at h
      have hta : t ∈ allIds f ∨ t ∈ allIds s := by
        rcases h with h | h
        · exact Or.inl (mem_allIds_of_containsPane h)
        · exact Or.inr (mem_allIds_of_containsPane h)
      have hid : id ≠ t := by
        rintro rfl
        rcases hta with hx | hx
        · exact hidf hx
        · exact hids hx
      by_cases hmf : t ∈ allIds f
      · have hcf : containsPane f t = true := by
          rcases h with h | h
          · exact h
          · exact absurd hmf (fun hx => hdisj hx (mem_allIds_of_containsPane h))
        have hres := ihf ndf hcf
        cases hff : find_node f t with
        | none => rw [hff] at hres; simp at hres
        | some m =>
            rw [hff] at hres
            simpa [find_node, hid, Option.orElse, hff] using hres
      · have hcs : containsPane s t = true := by
          rcases h with h | h
          · exact absurd (mem_allIds_of_containsPane h) hmf
          · exact h
        have hnone := find_node_none_of_not_mem hmf
        have hres := ihs nds hcs
        simpa [find_node, hid, Option.orElse, hnone] using hres

theorem node_id_mem_allIds (n : Node) : n.id ∈ allIds n := by
  cases n <;> simp [allIds, Node.id]

theorem delete_owned_not_mem {n : Node} {t : Nat}
    (h : t ∉ allIds n) : delete_node_owned n t = (n, false) := by
  induction n with
  | Pane id command => rfl
  | Split id d r f s ihf ihs =>
      simp only [allIds, List.mem_cons, List.mem_append, not_or] at h
      have hidf : f.id ∈ allIds f := node_id_mem_allIds f
      have hids : s.id ∈ allIds s := node_id_mem_allIds s
      have hf : ¬(f.id = t) := fun he => h.2.1 (he ▸ hidf)
      have hs : ¬(s.id = t) := fun he => h.2.2 (he ▸ hids)
      simp [delete_node_owned, hf, hs, ihf h.2.1, ihs h.2.2]

theorem delete_owned_unchanged {n : Node} {t : Nat}
    (h : (delete_node_owned n t).2 = false) :
    (delete_node_owned n t).1 = n := by
  induction n with
  | Pane id command => rfl
  | Split id d r f s ihf ihs =>
      by_cases hf : f.id = t
      · simp [delete_node_owned, hf] at h
      · by_cases hs : s.id = t
        · simp [delete_node_owned, hf, hs] at h
        · by_cases hok : (delete_node_owned f t).2 = true
          · simp [delete_node_owned, hf, hs, hok] at h
          · simp only [Bool.not_eq_true] at hok
            simp only [delete_node_owned, hf, hs, if_false, hok] at h ⊢
            simp only [Bool.false_eq_true, if_false] at h ⊢
            simp [ihf hok, ihs h]

theorem delete_owned_eq_spec {n : Node} {t : Nat}
    (hn : (allIds n).Nodup) (hc : containsPane n t = true)
    (hp : n.id ≠ t) :
    delete_node_owned n t = (delete_leaf_spec n t, true) := by
  induction n with
  | Pane id command =>
      simp only [containsPane, beq_iff_eq] at hc
      exact absurd hc hp
  | Split id d r f s ihf ihs =>
      obtain ⟨ndf, nds, hdisj, _, _⟩ := split_nodup_parts hn
      by_cases hf : f.id = t
      · simp [delete_node_owned, delete_leaf_spec, hf]
      · by_cases hs : s.id = t
        · simp [delete_node_owned, delete_leaf_spec, hf, hs]
        · simp only [containsPane, Bool.or_eq_true] at hc
          by_cases hmf : t ∈ allIds f
          · have hcf : containsPane f t = true := by
              rcases hc with h | h
              · exact h
              · exact absurd hmf (fun hx => hdisj hx (mem_allIds_of_containsPane h))
            have hres := ihf ndf hcf hf
            simp [delete_node_owned, delete_leaf_spec, hf, hs, hres, hcf]
          · have hcs : containsPane s t = true := by
              rcases hc with h | h
              · exact absurd (mem_allIds_of_containsPane h) hmf
              · exact h
            have hcf : containsPane f t = false := by
              by_contra hx
              simp only [Bool.not_eq_false] at hx
              exact hmf (mem_allIds_of_containsPane hx)
            have hres := ihs nds hcs hs
            simp [delete_node_owned, delete_leaf_spec, hf, hs,
              delete_owned_not_mem hmf, hres, hcf]

end Panes

/-- C5: `delete_leaf(root, target_id)` (the source's
`layout.rs::delete_node`, whose error variant is named `LastPane`)
(1) fails `LastPane` when the tree contains a single leaf,
(2) fails `NotFound` when (in a multi-leaf tree) no leaf has the target
id — in particular when the id belongs to a Split,
(3) otherwise (unique ids, the target is a leaf, at least two leaves)
succeeds and replaces the deleted leaf's parent Split with the remaining
sibling subtree, the promoted subtree keeping its id and the Split's id
being discarded (`delete_leaf_spec`), and
(4) on either error the returned tree is unchanged. -/
theorem c5_delete_node_correct (n : Panes.Node) (t : Nat) :
    (Panes.pane_count n ≤ 1 →
      Panes.delete_node n t = (n, some .LastPane)) ∧
    (2 ≤ Panes.pane_count n → Panes.containsPane n t = false →
      Panes.delete_node n t = (n, some .NotFound)) ∧
    ((Panes.allIds n).Nodup → Panes.containsPane n t = true →
      2 ≤ Panes.pane_count n →
      Panes.delete_node n t = (Panes.delete_leaf_spec n t, none)) ∧
    (∀ e, (Panes.delete_node n t).2 = some e →
      (Panes.delete_node n t).1 = n) := by
  refine ⟨fun h1 => ?_, fun h2 hc => ?_, fun hn hc h2 => ?_, fun e he => ?_⟩
  · simp [Panes.delete_node, h1]
  · have hfind := Panes.find_node_not_pane_of_not_contains hc
    simp [Panes.delete_node, Nat.not_le.mpr h2, hfind]
  · have hid : n.id ≠ t := by
      cases n with
      | Pane id command => simp [Panes.pane_count] at h2
      | Split id d r f s =>
          obtain ⟨_, _, _, hidf, hids⟩ := Panes.split_nodup_parts hn
          simp only [Panes.containsPane, Bool.or_eq_true] at hc
          simp only [Panes.Node.id]
          rintro rfl
          rcases hc with h | h
          · exact hidf (Panes.mem_allIds_of_containsPane h)
          · exact hids (Panes.mem_allIds_of_containsPane h)
    have hfind := Panes.find_node_is_pane_of_contains hn hc
    have howned := Panes.delete_owned_eq_spec hn hc hid
    simp [Panes.delete_node, Nat.not_le.mpr h2, hfind, howned]
  · by_cases h1 : Panes.pane_count n ≤ 1
    · simp [Panes.delete_node, h1]
    · by_cases hfind : (Panes.find_node n t).elim false Panes.Node.isPane
      · simp only [Panes.delete_node, h1, if_false, hfind, Bool.not_true] at he ⊢
        by_cases hdel : (Panes.delete_node_owned n t).2 = true
        · simp [hdel] at he
        · simp only [Bool.not_eq_true] at hdel
          simp only [hdel, Bool.false_eq_true, if_false]
          exact Panes.delete_owned_unchanged hdel
      · simp [Panes.delete_node, h1, hfind]

/-- C5 witness: the theorem applied to the sample tree of the source's
own tests (`Split(10, V, 0.5, Pane 1, Split(20, H, 0.5, Pane 2, Pane 3))`)
at target 2, plus the `LastPane` case on a single leaf. -/
theorem c5_delete_node_correct_witness :
    ((Panes.allIds (.Split 10 .Vertical (mkRat 1 2) (.Pane 1 none)
        (.Split 20 .Horizontal (mkRat 1 2) (.Pane 2 none) (.Pane 3 none)))).Nodup ∧
      Panes.containsPane (.Split 10 .Vertical (mkRat 1 2) (.Pane 1 none)
        (.Split 20 .Horizontal (mkRat 1 2) (.Pane 2 none) (.Pane 3 none))) 2 = true ∧
      2 ≤ Panes.pane_count (.Split 10 .Vertical (mkRat 1 2) (.Pane 1 none)
        (.Split 20 .Horizontal (mkRat 1 2) (.Pane 2 none) (.Pane 3 none))) ∧
      Panes.delete_node (.Split 10 .Vertical (mkRat 1 2) (.Pane 1 none)
          (.Split 20 .Horizontal (mkRat 1 2) (.Pane 2 none) (.Pane 3 none))) 2 =
        (Panes.delete_leaf_spec (.Split 10 .Vertical (mkRat 1 2) (.Pane 1 none)
          (.Split 20 .Horizontal (mkRat 1 2) (.Pane 2 none) (.Pane 3 none))) 2, none)) ∧
    (Panes.pane_count (.Pane 1 none) ≤ 1 ∧
      Panes.delete_node (.Pane 1 none) 1 = (.Pane 1 none, some .LastPane)) :=
  ⟨⟨by decide, by decide, by decide,
    (c5_delete_node_correct _ 2).2.2.1 (by decide) (by decide) (by decide)⟩,
   ⟨by decide, (c5_delete_node_correct (.Pane 1 none) 1).1 (by decide)⟩⟩

/-! ## C3 -/

namespace Bites

theorem point_in_rect_iff {R : Rect} {x y : Nat} :
    point_in_rect R x y = true ↔
      (R.x ≤ x ∧ x < R.x + R.width ∧ R.y ≤ y ∧ y < R.y + R.height) := by
  simp [point_in_rect, Bool.and_eq_true, decide_eq_true_eq, ge_iff_le,
    and_assoc]

theorem split_rect_cover (R : Rect) (o : Orientation) (r : Rat) (x y : Nat) :
    point_in_rect R x y = true ↔
      (point_in_rect (split_rect R o r).1 x y = true ∨
       point_in_rect (split_rect R o r).2 x y = true) := by
  obtain ⟨x0, y0, w, h⟩ := R
  cases o <;>
    simp only [split_rect] <;>
    split_ifs <;>
    simp only [point_in_rect_iff] <;>
    omega

theorem split_rect_disjoint (R : Rect) (o : Orientation) (r : Rat)
    (x y : Nat) (h : point_in_rect (split_rect R o r).1 x y = true) :
    point_in_rect (split_rect R o r).2 x y = false := by
  obtain ⟨x0, y0, w, hh⟩ := R
  revert h
  rw [← Bool.not_eq_true (point_in_rect (split_rect _ o r).2 x y)]
  cases o <;>
    simp only [split_rect] <;>
    split_ifs <;>
    simp only [point_in_rect_iff] <;>
    omega

end Bites

/-- C3: `layout_rects(t, R)` yields exactly one rect per leaf, in
pre-order (its ids are `collect_bites t` in order); the rects' union is
exactly `R` (a point lies in `R` iff it lies in one of the computed
rects — this holds even in the degenerate axis-≤-1 cases, where the
zero-sized sibling contributes no points); and the rects are pairwise
disjoint. -/
theorem c3_layout_rects_partition (t : Bites.Node) (R : Bites.Rect) :
    ((Bites.layout_rects t R).map Prod.fst = Bites.collect_bites t) ∧
    (∀ x y, Bites.point_in_rect R x y = true ↔
      ∃ p ∈ Bites.layout_rects t R, Bites.point_in_rect p.2 x y = true) ∧
    List.Pairwise (fun a b => ∀ x y,
        Bites.point_in_rect a.2 x y = true →
        Bites.point_in_rect b.2 x y = false)
      (Bites.layout_rects t R) := by
  induction t generalizing R with
  | Bite id name command =>
      refine ⟨rfl, fun x y => ?_, by simp [Bites.layout_rects]⟩
      simp [Bites.layout_rects, Bites.collect_bites]
  | Spoon id o r f s ihf ihs =>
      obtain ⟨mapf, coverf, pwf⟩ := ihf (Bites.split_rect R o r).1
      obtain ⟨maps, covers, pws⟩ := ihs (Bites.split_rect R o r).2
      have hsub1 : ∀ p ∈ Bites.layout_rects f (Bites.split_rect R o r).1,
          ∀ x y, Bites.point_in_rect p.2 x y = true →
            Bites.point_in_rect (Bites.split_rect R o r).1 x y = true := by
        intro p hp x y hxy
        exact (coverf x y).mpr ⟨p, hp, hxy⟩
      have hsub2 : ∀ p ∈ Bites.layout_rects s (Bites.split_rect R o r).2,
          ∀ x y, Bites.point_in_rect p.2 x y = true →
            Bites.point_in_rect (Bites.split_rect R o r).2 x y = true := by
        intro p hp x y hxy
        exact (covers x y).mpr ⟨p, hp, hxy⟩
      refine ⟨?_, fun x y => ?_, ?_⟩
      · simp [Bites.layout_rects, Bites.collect_bites, mapf, maps]
      · rw [show Bites.layout_rects (.Spoon id o r f s) R =
            Bites.layout_rects f (Bites.split_rect R o r).1 ++
              Bites.layout_rects s (Bites.split_rect R o r).2 by
          simp [Bites.layout_rects]]
        rw [Bites.split_rect_cover R o r x y]
        constructor
        · rintro (h | h)
          · obtain ⟨p, hp, hpt⟩ := (coverf x y).mp h
            exact ⟨p, List.mem_append_left _ hp, hpt⟩
          · obtain ⟨p, hp, hpt⟩ := (covers x y).mp h
            exact ⟨p, List.mem_append_right _ hp, hpt⟩
        · rintro ⟨p, hp, hpt⟩
          rcases List.mem_append.mp hp with hp | hp
          · exact Or.inl ((coverf x y).mpr ⟨p, hp, hpt⟩)
          · exact Or.inr ((covers x y).mpr ⟨p, hp, hpt⟩)
      · rw [show Bites.layout_rects (.Spoon id o r f s) R =
            Bites.layout_rects f (Bites.split_rect R o r).1 ++
              Bites.layout_rects s (Bites.split_rect R o r).2 by
          simp [Bites.layout_rects]]
        rw [List.pairwise_append]
        refine ⟨pwf, pws, fun a ha b hb x y hxy => ?_⟩
        have h1 := hsub1 a ha x y hxy
        have h2 := Bites.split_rect_disjoint R o r x y h1
        by_contra hb2
        simp only [Bool.not_eq_false] at hb2
        exact absurd (hsub2 b hb x y hb2) (by simp [h2])

/-! ## C1 -/

namespace Bites

theorem le_maxId_of_mem {n : Node} {i : Nat} (h : i ∈ allIds n) :
    i ≤ maxId n := by
  induction n with
  | Bite id name command =>
      simp only [allIds, List.mem_singleton] at h
      simp [maxId, h]
  | Spoon id o r f s ihf ihs =>
      simp only [allIds, List.mem_cons, List.mem_append] at h
      simp only [maxId]
      rcases h with h | h | h
      · omega
      · have := ihf h; omega
      · have := ihs h; omega

theorem clamp_ratio_bounds (r : Rat) :
    mkRat 1 10 ≤ clamp_ratio r ∧ clamp_ratio r ≤ mkRat 9 10 := by
  have h19 : mkRat 1 10 ≤ mkRat 9 10 := by decide
  unfold clamp_ratio
  split_ifs with h1 h2
  · exact ⟨le_refl _, h19⟩
  · exact ⟨h19, le_refl _⟩
  · exact ⟨le_of_not_lt h1, le_of_not_lt h2⟩

theorem trim_is_empty_append_bite (x : String) :
    trim_is_empty ("bite-" ++ x) = false := by
  simp [trim_is_empty, String.data_append]

theorem allIds_split_spec {n : Node} (t : Nat)
    (o : Orientation) (r : Rat) (nid : Nat) (cmd : String)
    (hc : contains_bite n t = true) :
    (allIds (split_leaf_spec n t o r nid cmd) : Multiset Nat) =
      {nid + 1} + {nid} + (allIds n : Multiset Nat) := by
  induction n with
  | Bite id name command =>
      simp only [contains_bite, beq_iff_eq] at hc
      simp only [split_leaf_spec, hc, if_true, allIds]
      simp only [← Multiset.cons_coe, ← Multiset.coe_add,
        ← Multiset.singleton_add, Multiset.coe_nil]
      abel
  | Spoon id o' r' f s ihf ihs =>
      by_cases hf : contains_bite f t
      · simp only [split_leaf_spec, hf, if_true, allIds]
        simp only [← Multiset.cons_coe, ← Multiset.coe_add,
          ← Multiset.singleton_add, ihf hf]
        abel
      · simp only [contains_bite, Bool.or_eq_true] at hc
        have hs : contains_bite s t = true := by
          rcases hc with h | h
          · exact absurd h (by simp [hf])
          · exact h
        simp only [Bool.not_eq_true] at hf
        simp only [split_leaf_spec, hf, Bool.false_eq_true, if_false, allIds]
        simp only [← Multiset.cons_coe, ← Multiset.coe_add,
          ← Multiset.singleton_add, ihs hs]
        abel

theorem ratiosOk_split_spec {n : Node} (hr : ratiosOk n = true)
    (t : Nat) (o : Orientation) (r : Rat) (nid : Nat) (cmd : String) :
    ratiosOk (split_leaf_spec n t o r nid cmd) = true := by
  induction n with
  | Bite id name command =>
      by_cases h : id = t <;>
        simp [split_leaf_spec, h, ratiosOk, clamp_ratio_bounds r,
          (clamp_ratio_bounds r).1, (clamp_ratio_bounds r).2]
  | Spoon id o' r' f s ihf ihs =>
      simp only [ratiosOk, Bool.and_eq_true] at hr
      by_cases hf : contains_bite f t <;>
        simp [split_leaf_spec, hf, ratiosOk, hr.1.1, hr.1.2, ihf hr.1.2,
          ihs hr.2, hr.2]

theorem bitesOk_split_spec {n : Node} (hb : bitesOk n = true)
    (t : Nat) (o : Orientation) (r : Rat) (nid : Nat) {cmd : String}
    (hcmd : trim_is_empty cmd = false) :
    bitesOk (split_leaf_spec n t o r nid cmd) = true := by
  induction n with
  | Bite id name command =>
      by_cases h : id = t
      · simpa [split_leaf_spec, h, bitesOk, trim_is_empty_append_bite,
          hcmd] using hb
      · simpa [split_leaf_spec, h] using hb
  | Spoon id o' r' f s ihf ihs =>
      simp only [bitesOk, Bool.and_eq_true] at hb
      by_cases hf : contains_bite f t <;>
        simp [split_leaf_spec, hf, bitesOk, ihf hb.1, ihs hb.2, hb.1, hb.2]

end Bites

namespace Bites

theorem allIds_resize_spec (n : Node) (t : Nat) (o : Orientation) (d : Rat) :
    allIds (resize_outermost_spec n t o d) = allIds n := by
  induction n with
  | Bite id name command => rfl
  | Spoon id o' r f s ihf ihs =>
      simp only [resize_outermost_spec]
      split_ifs <;> simp [allIds, ihf, ihs]

theorem bitesOk_resize_spec (n : Node) (t : Nat) (o : Orientation) (d : Rat) :
    bitesOk (resize_outermost_spec n t o d) = bitesOk n := by
  induction n with
  | Bite id name command => rfl
  | Spoon id o' r f s ihf ihs =>
      simp only [resize_outermost_spec]
      split_ifs <;> simp [bitesOk, ihf, ihs]

theorem ratiosOk_resize_spec {n : Node} (hr : ratiosOk n = true)
    (t : Nat) (o : Orientation) (d : Rat) :
    ratiosOk (resize_outermost_spec n t o d) = true := by
  induction n with
  | Bite id name command => rfl
  | Spoon id o' r f s ihf ihs =>
      simp only [ratiosOk, Bool.and_eq_true] at hr
      simp only [resize_outermost_spec]
      split_ifs <;>
        simp [ratiosOk, hr.1.1, hr.1.2, hr.2, ihf hr.1.2, ihs hr.2,
          (clamp_ratio_bounds (r + d)).1, (clamp_ratio_bounds (r + d)).2]

theorem swap_preserves (n : Node) (t : Nat) (o : Orientation) :
    ((allIds (swap_adjacent_bites n t o).1 : Multiset Nat) =
      (allIds n : Multiset Nat)) ∧
    bitesOk (swap_adjacent_bites n t o).1 = bitesOk n ∧
    ratiosOk (swap_adjacent_bites n t o).1 = ratiosOk n := by
  induction n with
  | Bite id name command => exact ⟨rfl, rfl, rfl⟩
  | Spoon id o' r f s ihf ihs =>
      rcases hrf : swap_adjacent_bites f t o with ⟨f', okf⟩
      rcases hrs : swap_adjacent_bites s t o with ⟨s', oks⟩
      rw [hrf] at ihf
      rw [hrs] at ihs
      obtain ⟨if1, if2, if3⟩ := ihf
      obtain ⟨is1, is2, is3⟩ := ihs
      by_cases hcond : o' = o ∧ (f.isBite && s.isBite) = true ∧
          (f.id = t ∨ s.id = t)
      · refine ⟨?_, ?_, ?_⟩ <;>
          simp only [swap_adjacent_bites, hcond, if_true, allIds, bitesOk,
            ratiosOk]
        · simp only [← Multiset.cons_coe, ← Multiset.coe_add,
            ← Multiset.singleton_add]
          abel
        · cases hbf : bitesOk f <;> cases hbs : bitesOk s <;> simp
        · cases hf2 : ratiosOk f <;> cases hs2 : ratiosOk s <;> simp
      · cases okf
        · cases oks <;>
            refine ⟨?_, ?_, ?_⟩ <;>
              simp only [swap_adjacent_bites, hcond, if_false, hrf, hrs,
                Bool.false_eq_true, if_true, if_false, allIds, bitesOk,
                ratiosOk] <;>
              simp [if1, if2, if3, is1, is2, is3,
                ← Multiset.cons_coe, ← Multiset.coe_add,
                ← Multiset.singleton_add]
        · refine ⟨?_, ?_, ?_⟩ <;>
            simp only [swap_adjacent_bites, hcond, if_false, hrf, hrs,
              if_true, allIds, bitesOk, ratiosOk] <;>
            simp [if1, if2, if3,
              ← Multiset.cons_coe, ← Multiset.coe_add,
              ← Multiset.singleton_add]

theorem delete_owned_preserves (n : Node) (t : Nat) :
    ((allIds (delete_bite_owned n t).1 : Multiset Nat) ≤
      (allIds n : Multiset Nat)) ∧
    (bitesOk n = true → bitesOk (delete_bite_owned n t).1 = true) ∧
    (ratiosOk n = true → ratiosOk (delete_bite_owned n t).1 = true) := by
  induction n with
  | Bite id name command => exact ⟨le_refl _, fun h => h, fun h => h⟩
  | Spoon id o' r f s ihf ihs =>
      rcases hrf : delete_bite_owned f t with ⟨f', okf⟩
      rcases hrs : delete_bite_owned s t with ⟨s', oks⟩
      rw [hrf] at ihf
      rw [hrs] at ihs
      obtain ⟨if1, if2, if3⟩ := ihf
      obtain ⟨is1, is2, is3⟩ := ihs
      have hexp : (allIds (Node.Spoon id o' r f s) : Multiset Nat) =
          {id} + ((allIds f : Multiset Nat) + (allIds s : Multiset Nat)) := by
        simp only [allIds, ← Multiset.cons_coe, ← Multiset.coe_add,
          ← Multiset.singleton_add]
      by_cases hfid : f.id = t
      · refine ⟨?_, fun hb => ?_, fun hr2 => ?_⟩ <;>
          simp only [delete_bite_owned, hfid, if_true, hexp]
        · calc (allIds s : Multiset Nat) ≤
              (allIds f : Multiset Nat) + (allIds s : Multiset Nat) :=
                Multiset.le_add_left _ _
            _ ≤ {id} + ((allIds f : Multiset Nat) + (allIds s : Multiset Nat)) :=
                Multiset.le_add_left _ _
        · simp only [bitesOk, Bool.and_eq_true] at hb
          exact hb.2
        · simp only [ratiosOk, Bool.and_eq_true] at hr2
          exact hr2.2
      · by_cases hsid : s.id = t
        · refine ⟨?_, fun hb => ?_, fun hr2 => ?_⟩ <;>
            simp only [delete_bite_owned, hfid, hsid, if_true, if_false, hexp]
          · calc (allIds f : Multiset Nat) ≤
                (allIds f : Multiset Nat) + (allIds s : Multiset Nat) :=
                  Multiset.le_add_right _ _
              _ ≤ {id} + ((allIds f : Multiset Nat) + (allIds s : Multiset Nat)) :=
                  Multiset.le_add_left _ _
          · simp only [bitesOk, Bool.and_eq_true] at hb
            exact hb.1
          · simp only [ratiosOk, Bool.and_eq_true] at hr2
            exact hr2.1.2
        · have hres : (delete_bite_owned (Node.Spoon id o' r f s) t).1 =
              .Spoon id o' r f' (if okf = true then s else s') := by
            cases okf <;> simp [delete_bite_owned, hfid, hsid, hrf, hrs]
          refine ⟨?_, fun hb => ?_, fun hr2 => ?_⟩
          · rw [hres]
            simp only [allIds, hexp, ← Multiset.cons_coe, ← Multiset.coe_add,
              ← Multiset.singleton_add]
            cases okf
            · simp only [Bool.false_eq_true, if_false]
              exact add_le_add_left (add_le_add if1 is1) _
            · simp only [if_true]
              exact add_le_add_left (add_le_add if1 (le_refl _)) _
          · rw [hres]
            simp only [bitesOk, Bool.and_eq_true] at hb ⊢
            cases okf
            · simp only [Bool.false_eq_true, if_false]
              exact ⟨if2 hb.1, is2 hb.2⟩
            · simp only [if_true]
              exact ⟨if2 hb.1, hb.2⟩
          · rw [hres]
            simp only [ratiosOk, Bool.and_eq_true] at hr2 ⊢
            cases okf
            · simp only [Bool.false_eq_true, if_false]
              exact ⟨⟨hr2.1.1, if3 hr2.1.2⟩, is3 hr2.2⟩
            · simp only [if_true]
              exact ⟨⟨hr2.1.1, if3 hr2.1.2⟩, hr2.2⟩

end Bites

namespace Bites

theorem applyOp_preserves {n : Node} (hinv : invariant n) {op : Op}
    (hv : op.valid = true) : invariant (applyOp n op) := by
  obtain ⟨hnd, hr, hb⟩ := hinv
  cases op with
  | split target o r cmd =>
      simp only [Op.valid, Bool.not_eq_true'] at hv
      simp only [applyOp, split_bite_eq_spec]
      by_cases hc : contains_bite n target = true
      · refine ⟨?_, ratiosOk_split_spec hr target o r (next_id n) cmd,
          bitesOk_split_spec hb target o r (next_id n) hv⟩
        rw [← Multiset.coe_nodup,
          allIds_split_spec target o r (next_id n) cmd hc,
          add_assoc, Multiset.singleton_add, Multiset.singleton_add,
          Multiset.nodup_cons, Multiset.nodup_cons]
        have hfresh : ∀ i ∈ allIds n, i < next_id n := fun i hi =>
          Nat.lt_succ_of_le (le_maxId_of_mem hi)
        refine ⟨?_, ?_, (Multiset.coe_nodup).2 hnd⟩
        · simp only [Multiset.mem_cons, Multiset.mem_coe]
          rintro (h | h)
          · omega
          · exact absurd (hfresh _ h) (by omega)
        · simp only [Multiset.mem_coe]
          intro h
          exact absurd (hfresh _ h) (by omega)
      · simp only [Bool.not_eq_true] at hc
        rw [split_leaf_spec_not_found hc]
        exact ⟨hnd, hr, hb⟩
  | delete target =>
      obtain ⟨d1, d2, d3⟩ := delete_owned_preserves n target
      have hkeep : invariant (delete_bite_owned n target).1 :=
        ⟨(Multiset.coe_nodup).1
          (Multiset.nodup_of_le d1 ((Multiset.coe_nodup).2 hnd)),
         d3 hr, d2 hb⟩
      simp only [applyOp, delete_bite]
      split_ifs <;> first
        | exact ⟨hnd, hr, hb⟩
        | exact hkeep
  | resize target o d =>
      simp only [applyOp, resize_from_bite, resize_eq_spec target o d hnd]
      refine ⟨?_, ratiosOk_resize_spec hr target o d, ?_⟩
      · rw [allIds_resize_spec]
        exact hnd
      · rw [bitesOk_resize_spec]
        exact hb
  | swap target o =>
      obtain ⟨s1, s2, s3⟩ := swap_preserves n target o
      simp only [applyOp]
      refine ⟨?_, ?_, ?_⟩
      · exact (Multiset.coe_nodup).1 (s1 ▸ (Multiset.coe_nodup).2 hnd)
      · rw [s3]
        exact hr
      · rw [s2]
        exact hb

end Bites

/-- C1: starting from any tree satisfying the spec §3 invariants (unique
node ids, every Split ratio in `[0.1, 0.9]`, every leaf with non-blank
trimmed name and command — "every Split has exactly two children" holds
by construction of the `Node` type), applying any sequence of valid
layout-tree operations (split with the `next_id`-allocated fresh id and
a non-blank default command, delete, resize, swap, as invoked by the
runtime and editor) yields a tree satisfying the same invariants. -/
theorem c1_ops_preserve_invariants (t : Bites.Node) (ops : List Bites.Op)
    (hinv : Bites.invariant t)
    (hval : ∀ op ∈ ops, op.valid = true) :
    Bites.invariant (ops.foldl Bites.applyOp t) := by
  induction ops generalizing t with
  | nil => exact hinv
  | cons op rest ih =>
      exact ih _
        (Bites.applyOp_preserves hinv (hval op (List.mem_cons_self op rest)))
        (fun o ho => hval o (List.mem_cons_of_mem op ho))

/-- C1 witness: the default single-leaf tree, split then resized then
swapped then deleted, keeps the invariants. -/
theorem c1_ops_preserve_invariants_witness :
    Bites.invariant (.Bite 1 "main" "bash") ∧
    (∀ op ∈ ([.split 1 .Vertical (mkRat 1 2) "bash",
        .resize 2 .Vertical (mkRat 1 5), .swap 2 .Vertical,
        .delete 2] : List Bites.Op), op.valid = true) ∧
    Bites.invariant
      (([.split 1 .Vertical (mkRat 1 2) "bash",
          .resize 2 .Vertical (mkRat 1 5), .swap 2 .Vertical,
          .delete 2] : List Bites.Op).foldl Bites.applyOp
        (.Bite 1 "main" "bash")) :=
  ⟨by decide, by decide,
    c1_ops_preserve_invariants (.Bite 1 "main" "bash") _ (by decide) (by decide)⟩

/-! ## C9 -/

namespace Bites

theorem find_bite_isSome_iff_contains (n : Node) (t : Nat) :
    (find_bite n t).isSome = contains_bite n t := by
  induction n with
  | Bite id name command =>
      by_cases h : id = t <;> simp [find_bite, contains_bite, h]
  | Spoon id o r f s ihf ihs =>
      cases hf : find_bite f t with
      | none =>
          rw [hf] at ihf
          simp [find_bite, contains_bite, Option.orElse, hf, ← ihf, ihs]
      | some m =>
          rw [hf] at ihf
          simp [find_bite, contains_bite, Option.orElse, hf, ← ihf]

end Bites

namespace Editor

theorem contains_set_bite_name (f : Bites.Node) (t : Nat) (v : String)
    (u : Nat) :
    Bites.contains_bite (set_bite_name f t v) u = Bites.contains_bite f u := by
  induction f with
  | Bite id2 n2 c2 =>
      by_cases h2 : id2 = t <;>
        simp [set_bite_name, h2, Bites.contains_bite]
  | Spoon id2 o2 r2 f2 s2 ihf2 ihs2 =>
      by_cases h2 : Bites.contains_bite f2 t = true <;>
        simp [set_bite_name, h2, Bites.contains_bite, ihf2, ihs2]

theorem contains_set_bite_command (f : Bites.Node) (t : Nat) (v : String)
    (u : Nat) :
    Bites.contains_bite (set_bite_command f t v) u =
      Bites.contains_bite f u := by
  induction f with
  | Bite id2 n2 c2 =>
      by_cases h2 : id2 = t <;>
        simp [set_bite_command, h2, Bites.contains_bite]
  | Spoon id2 o2 r2 f2 s2 ihf2 ihs2 =>
      by_cases h2 : Bites.contains_bite f2 t = true <;>
        simp [set_bite_command, h2, Bites.contains_bite, ihf2, ihs2]

theorem find_bite_none_of_not_contains {f : Bites.Node} {t : Nat}
    (h : Bites.contains_bite f t = false) : Bites.find_bite f t = none := by
  have h2 := Bites.find_bite_isSome_iff_contains f t
  rw [h] at h2
  exact Option.not_isSome_iff_eq_none.mp (by simp [h2])

theorem find_bite_set_name {layout : Bites.Node} {t : Nat} {nm cmd : String}
    (h : Bites.find_bite layout t = some (.Bite t nm cmd)) (v : String) :
    Bites.find_bite (set_bite_name layout t v) t = some (.Bite t v cmd) := by
  induction layout with
  | Bite id name command =>
      by_cases hid : id = t
      · simp only [Bites.find_bite, hid, if_true, Option.some.injEq,
          Bites.Node.Bite.injEq] at h
        simp [set_bite_name, hid, Bites.find_bite, h.2.2]
      · simp [Bites.find_bite, hid] at h
  | Spoon id o r f s ihf ihs =>
      by_cases hcf : Bites.contains_bite f t = true
      · have hsome : (Bites.find_bite f t).isSome = true := by
          rw [Bites.find_bite_isSome_iff_contains]
          exact hcf
        cases hf : Bites.find_bite f t with
        | none => rw [hf] at hsome; simp at hsome
        | some m =>
            have hm : m = Bites.Node.Bite t nm cmd := by
              have h2 := h
              simp only [Bites.find_bite, hf, Option.orElse] at h2
              simpa using h2
            have hres := ihf (hm ▸ hf)
            simp only [set_bite_name, hcf, if_true, Bites.find_bite]
            cases hf2 : Bites.find_bite (set_bite_name f t v) t with
            | none => rw [hf2] at hres; simp at hres
            | some m2 =>
                rw [hf2] at hres
                simpa [Option.orElse] using hres
      · have hcf2 : Bites.contains_bite f t = false := by
          simpa using hcf
        have hnone := find_bite_none_of_not_contains hcf2
        have hs : Bites.find_bite s t = some (.Bite t nm cmd) := by
          have h2 := h
          simp only [Bites.find_bite, hnone, Option.orElse] at h2
          exact h2
        have hres := ihs hs
        simp only [set_bite_name, hcf2, Bool.false_eq_true, if_false,
          Bites.find_bite, hnone, Option.orElse]
        exact hres

theorem find_bite_set_command {layout : Bites.Node} {t : Nat}
    {nm cmd : String}
    (h : Bites.find_bite layout t = some (.Bite t nm cmd)) (v : String) :
    Bites.find_bite (set_bite_command layout t v) t =
      some (.Bite t nm v) := by
  induction layout with
  | Bite id name command =>
      by_cases hid : id = t
      · simp only [Bites.find_bite, hid, if_true, Option.some.injEq,
          Bites.Node.Bite.injEq] at h
        simp [set_bite_command, hid, Bites.find_bite, h.2.1]
      · simp [Bites.find_bite, hid] at h
  | Spoon id o r f s ihf ihs =>
      by_cases hcf : Bites.contains_bite f t = true
      · have hsome : (Bites.find_bite f t).isSome = true := by
          rw [Bites.find_bite_isSome_iff_contains]
          exact hcf
        cases hf : Bites.find_bite f t with
        | none => rw [hf] at hsome; simp at hsome
        | some m =>
            have hm : m = Bites.Node.Bite t nm cmd := by
              have h2 := h
              simp only [Bites.find_bite, hf, Option.orElse] at h2
              simpa using h2
            have hres := ihf (hm ▸ hf)
            simp only [set_bite_command, hcf, if_true, Bites.find_bite]
            cases hf2 : Bites.find_bite (set_bite_command f t v) t with
            | none => rw [hf2] at hres; simp at hres
            | some m2 =>
                rw [hf2] at hres
                simpa [Option.orElse] using hres
      · have hcf2 : Bites.contains_bite f t = false := by
          simpa using hcf
        have hnone := find_bite_none_of_not_contains hcf2
        have hs : Bites.find_bite s t = some (.Bite t nm cmd) := by
          have h2 := h
          simp only [Bites.find_bite, hnone, Option.orElse] at h2
          exact h2
        have hres := ihs hs
        simp only [set_bite_command, hcf2, Bool.false_eq_true, if_false,
          Bites.find_bite, hnone, Option.orElse]
        exact hres

end Editor

/-- C9 (counterexample): with leaf 1 selected and the Name prompt
holding the whitespace-only buffer `" "`, pressing Enter commits `" "`
as the leaf's name — the buffer is committed untrimmed and a
whitespace-only (hence trimmed-empty) commit is *not* a no-op, contrary
to the claim.  Likewise a buffer `" x "` is committed as `" x "`, not
trimmed to `"x"`. -/
theorem c9_input_commit_counterexample :
    Editor.handle_input_key (.Bite 1 "main" "bash") 1
        ⟨.Name, " "⟩ ⟨.Enter, ⟨false, false, false⟩⟩ =
      (.Bite 1 " " "bash", ⟨.Name, " "⟩, true) ∧
    trim_is_empty " " = true ∧
    Editor.handle_input_key (.Bite 1 "main" "bash") 1
        ⟨.Name, " x "⟩ ⟨.Enter, ⟨false, false, false⟩⟩ =
      (.Bite 1 " x " "bash", ⟨.Name, " x "⟩, true) := by
  refine ⟨?_, by decide, ?_⟩ <;> rfl

/-- C9 (amended: Enter commits the *raw, untrimmed* buffer, and only an
*exactly empty* buffer is a no-op; a whitespace-only buffer does become
the selected leaf's name or command): pressing Enter in the editor's
input prompt closes it and applies `apply_input`; an empty buffer
leaves the tree unchanged, and a non-empty buffer becomes the selected
leaf's name or command exactly as typed. -/
theorem c9_input_commit_amended (layout : Bites.Node) (selected : Nat)
    (input : Editor.InputMode) (m : Keys.KeyModifiersM) :
    Editor.handle_input_key layout selected input ⟨.Enter, m⟩ =
      (Editor.apply_input layout selected input, input, true) ∧
    (input.buffer = "" → Editor.apply_input layout selected input = layout) ∧
    (∀ nm cmd, input.buffer ≠ "" →
      Bites.find_bite layout selected = some (.Bite selected nm cmd) →
      Bites.find_bite (Editor.apply_input layout selected input) selected =
        some (match input.kind with
          | .Name => .Bite selected input.buffer cmd
          | .Command => .Bite selected nm input.buffer)) := by
  obtain ⟨kind, buffer⟩ := input
  refine ⟨rfl, fun hempty => ?_, fun nm cmd hne hfind => ?_⟩
  · simp only at hempty
    have hbe : buffer.isEmpty = true := by
      simp [String.isEmpty_iff, hempty]
    cases kind <;> simp [Editor.apply_input, hbe]
  · simp only at hne
    have hbuf : buffer.isEmpty = false := by
      cases hbe : buffer.isEmpty
      · rfl
      · exact absurd ((String.isEmpty_iff buffer).mp (by simp [hbe])) hne
    cases kind
    · simpa [Editor.apply_input, hbuf] using
        Editor.find_bite_set_name hfind buffer
    · simpa [Editor.apply_input, hbuf] using
        Editor.find_bite_set_command hfind buffer

/-- C9 witness: the amended theorem applied to a single-leaf tree with
the whitespace-only buffer `" "` in the Name prompt. -/
theorem c9_input_commit_amended_witness :
    (" " ≠ "") ∧
    Bites.find_bite (.Bite 1 "main" "bash") 1 =
      some (.Bite 1 "main" "bash") ∧
    Bites.find_bite
        (Editor.apply_input (.Bite 1 "main" "bash") 1 ⟨.Name, " "⟩) 1 =
      some (.Bite 1 " " "bash") :=
  ⟨by decide, by decide,
    (c9_input_commit_amended (.Bite 1 "main" "bash") 1 ⟨.Name, " "⟩
      ⟨false, false, false⟩).2.2 "main" "bash" (by decide) (by decide)⟩

/-! ## C7 -/

/-- C7 (counterexample): for the valid name `"dev"` with no file on
disk, `load_template` returns the default template while `load_state`
returns a read error — the two loaders do *not* have identical
semantics apart from the directory. -/
theorem c7_load_state_counterexample :
    Bites.load_template "dev" .missing = .ok Bites.default_template ∧
    Bites.load_state "dev" .missing = .error "read error" :=
  ⟨rfl, rfl⟩

/-- C7 (amended: `load_state` differs from `load_template` exactly on a
missing file): on an existing file (parsable or not) `load_state`
behaves identically to `load_template`, but when the state file does
not exist `load_template` returns the default template while
`load_state` propagates the read error instead. -/
theorem c7_load_state_amended (name : String) (file : Bites.FsFile) :
    (file ≠ .missing →
      Bites.load_state name file = Bites.load_template name file) ∧
    (Bites.validate_store_name name = .ok () →
      Bites.load_template name .missing = .ok Bites.default_template ∧
      (Bites.load_state name .missing).isOk = false) := by
  constructor
  · intro hne
    cases file with
    | missing => exact absurd rfl hne
    | unparsable => rfl
    | parsed t => rfl
  · intro hv
    constructor
    · simp only [Bites.load_template, hv]
      rfl
    · simp only [Bites.load_state, hv]
      rfl

/-- C7 witness: the amended theorem applied to the name `"dev"`, with a
parsed file and with a missing file. -/
theorem c7_load_state_amended_witness :
    ((Bites.FsFile.parsed Bites.default_template ≠ .missing) ∧
      Bites.load_state "dev" (.parsed Bites.default_template) =
        Bites.load_template "dev" (.parsed Bites.default_template)) ∧
    (Bites.validate_store_name "dev" = .ok () ∧
      Bites.load_template "dev" .missing = .ok Bites.default_template ∧
      (Bites.load_state "dev" .missing).isOk = false) :=
  ⟨⟨by decide,
    (c7_load_state_amended "dev" (.parsed Bites.default_template)).1 (by decide)⟩,
   ⟨by decide, (c7_load_state_amended "dev" .missing).2 (by decide)⟩⟩

/-! ## C8 -/

/-- C8 (counterexample): with the configured `Quit` binding `Ctrl+c` and
a save prompt open, the `Ctrl+c` key event matches `is_quit_key` yet
`handle_key` returns `false` (the loop does not exit): the prompt is
consulted *before* the action bindings, so the quit key does not take
precedence over an open prompt. -/
theorem c8_quit_counterexample :
    Rt.is_quit_key
        [(⟨.Char 'c', ⟨true, false, false⟩⟩, .Quit)]
        ⟨.Char 'c', ⟨true, false, false⟩⟩ = true ∧
    (Rt.handle_key
        ⟨some ⟨"保存名", "", .Save⟩,
          [(⟨.Char 'c', ⟨true, false, false⟩⟩, .Quit)]⟩
        ⟨.Char 'c', ⟨true, false, false⟩⟩).quit = false := by
  decide

/-- C8 (amended: prompt handling precedes the Quit match): while a
save/restore prompt is open `handle_key` routes every key — the
configured `Quit` key included — to the prompt handler and never exits
the loop; a `Ctrl`-modified character key is ignored by the prompt (the
prompt, its buffer included, is unchanged) rather than absorbed; and
with no prompt open, a key whose first matching binding is `Quit` exits
the loop. -/
theorem c8_prompt_precedence (st : Rt.RtState) (key : Keys.KeyEventM) :
    (∀ p, st.prompt = some p → (Rt.handle_key st key).quit = false) ∧
    (∀ p c, st.prompt = some p → key.code = .Char c →
      key.modifiers.ctrl = true →
      (Rt.handle_key st key).prompt = some p) ∧
    (∀ b, st.prompt = none →
      st.actions.find? (fun ba => ba.1.matches key) = some (b, .Quit) →
      (Rt.handle_key st key).quit = true) := by
  refine ⟨fun p hp => ?_, fun p c hp hcode hctrl => ?_, fun b hp hfind => ?_⟩
  · simp [Rt.handle_key, hp]
  · simp [Rt.handle_key, hp, Rt.handle_prompt_key, hcode, hctrl]
  · simp [Rt.handle_key, hp, hfind, Rt.handle_action]

/-- C8 witness: the amended theorem applied to the `Ctrl+c` quit
binding, once with a save prompt open and once without. -/
theorem c8_prompt_precedence_witness :
    ((Rt.RtState.mk (some ⟨"保存名", "", .Save⟩)
          [(⟨.Char 'c', ⟨true, false, false⟩⟩, .Quit)]).prompt =
        some ⟨"保存名", "", .Save⟩ ∧
      (Rt.handle_key
          ⟨some ⟨"保存名", "", .Save⟩,
            [(⟨.Char 'c', ⟨true, false, false⟩⟩, .Quit)]⟩
          ⟨.Char 'c', ⟨true, false, false⟩⟩).quit = false) ∧
    ((Rt.RtState.mk none
          [(⟨.Char 'c', ⟨true, false, false⟩⟩, .Quit)]).prompt = none ∧
      (Rt.RtState.mk none
          [(⟨.Char 'c', ⟨true, false, false⟩⟩, .Quit)]).actions.find?
          (fun ba => ba.1.matches ⟨.Char 'c', ⟨true, false, false⟩⟩) =
        some (⟨.Char 'c', ⟨true, false, false⟩⟩, .Quit) ∧
      (Rt.handle_key
          ⟨none, [(⟨.Char 'c', ⟨true, false, false⟩⟩, .Quit)]⟩
          ⟨.Char 'c', ⟨true, false, false⟩⟩).quit = true) :=
  ⟨⟨rfl,
    (c8_prompt_precedence
        ⟨some ⟨"保存名", "", .Save⟩,
          [(⟨.Char 'c', ⟨true, false, false⟩⟩, .Quit)]⟩
        ⟨.Char 'c', ⟨true, false, false⟩⟩).1 ⟨"保存名", "", .Save⟩ rfl⟩,
   ⟨rfl, by decide,
    (c8_prompt_precedence
        ⟨none, [(⟨.Char 'c', ⟨true, false, false⟩⟩, .Quit)]⟩
        ⟨.Char 'c', ⟨true, false, false⟩⟩).2.2
      ⟨.Char 'c', ⟨true, false, false⟩⟩ rfl (by decide)⟩⟩

/-! ## C2 -/

namespace Panes

theorem node_to_kdl_name (n : Node) : (node_to_kdl n).name = "pane" := by
  cases n <;> rfl
theorem node_from_to_kdl {n : Node} (hc : commandsOk n = true) (next : Nat) :
    node_from_kdl (node_to_kdl n) next = .ok (reassignNode n next) := by
  induction n generalizing next with
  | Pane id command =>
      cases command with
      | none =>
          rw [node_from_kdl]
          rfl
      | some c =>
          simp only [commandsOk, Bool.not_eq_true'] at hc
          rw [node_from_kdl]
          simp [node_to_kdl, KdlNodeM.name, KdlNodeM.props, KdlNodeM.children,
            node_u64, node_string, kdl_get, hc, reassignNode, Option.filter]
  | Split id direction ratio f s ihf ihs =>
      simp only [commandsOk, Bool.and_eq_true] at hc
      rcases hf : node_to_kdl f with ⟨fn, fp, fc⟩
      rcases hs2 : node_to_kdl s with ⟨sn, sp, sc⟩
      have hfn : fn = "pane" := by
        have h2 := node_to_kdl_name f
        rw [hf] at h2
        exact h2
      have hsn : sn = "pane" := by
        have h2 := node_to_kdl_name s
        rw [hs2] at h2
        exact h2
      subst hfn
      subst hsn
      have ihf2 : ∀ k, node_from_kdl (.mk "pane" fp fc) k =
          .ok (reassignNode f k) := fun k => by
        rw [← hf]
        exact ihf hc.1 k
      have ihs2 : ∀ k, node_from_kdl (.mk "pane" sp sc) k =
          .ok (reassignNode s k) := fun k => by
        rw [← hs2]
        exact ihs hc.2 k
      have hnode : node_to_kdl (Node.Split id direction ratio f s) =
          .mk "pane"
            [("split_direction",
              .str (match direction with
                    | .Vertical => "vertical"
                    | .Horizontal => "horizontal"))]
            (some [.mk "pane" fp fc, .mk "pane" sp sc]) := by
        rw [show node_to_kdl (Node.Split id direction ratio f s) =
            .mk "pane"
              [("split_direction",
                .str (match direction with
                      | .Vertical => "vertical"
                      | .Horizontal => "horizontal"))]
              (some [node_to_kdl f, node_to_kdl s]) from rfl, hf, hs2]
      rw [hnode, node_from_kdl]
      cases direction <;>
        simp [KdlNodeM.name, KdlNodeM.props, KdlNodeM.children, node_u64,
          node_string, node_f32, kdl_get, ihf2, ihs2, reassignNode,
          List.filter] <;>
        rfl

theorem tab_from_to_kdl {tab : Tab} (hc : commandsOk tab.root = true)
    (active : Bool) (next index : Nat) :
    tab_from_kdl (tab_to_kdl tab active) next index =
      .ok (⟨tab.name, (reassignNode tab.root next).1⟩,
        (reassignNode tab.root next).2) := by
  rw [tab_from_kdl]
  rcases hr : node_to_kdl tab.root with ⟨rn, rp, rc⟩
  have hrn : rn = "pane" := by
    have h2 := node_to_kdl_name tab.root
    rw [hr] at h2
    exact h2
  subst hrn
  have hrec : node_from_kdl (.mk "pane" rp rc) next =
      .ok (reassignNode tab.root next) := by
    rw [← hr]
    exact node_from_to_kdl hc next
  cases active <;>
    simp [tab_to_kdl, KdlNodeM.name, KdlNodeM.props, KdlNodeM.children,
      node_string, kdl_get, hr, List.find?, KdlNodeM.name, hrec] <;>
    rfl

theorem tabs_from_to_kdl {tabs : List Tab}
    (hc : ∀ tab ∈ tabs, commandsOk tab.root = true)
    (next idxK active idx0 : Nat) :
    tabs_from_kdl (tabsToKdl tabs idxK active) next idx0 =
      .ok (reassignTabs tabs next) := by
  induction tabs generalizing next idxK idx0 with
  | nil => rfl
  | cons t rest ih =>
      have hct : commandsOk t.root = true := hc t (List.mem_cons_self t rest)
      have hcr : ∀ tab ∈ rest, commandsOk tab.root = true :=
        fun tab htab => hc tab (List.mem_cons_of_mem t htab)
      simp only [tabsToKdl, tabs_from_kdl]
      rw [tab_from_to_kdl hct]
      simp only [bind, Except.bind]
      rw [ih hcr]
      rfl

theorem node_bool_tab_to_kdl (t : Tab) (b : Bool) :
    node_bool (tab_to_kdl t b) "active" =
      if b then some true else none := by
  cases b <;>
    simp [tab_to_kdl, node_bool, kdl_get, KdlNodeM.props, List.find?]

theorem tab_to_kdl_name (t : Tab) (b : Bool) :
    (tab_to_kdl t b).name = "tab" := by
  cases b <;> rfl

theorem activeScan_tabsToKdl (tabs : List Tab) (idx active acc : Nat) :
    activeScan (tabsToKdl tabs idx active) idx acc =
      if idx ≤ active ∧ active < idx + tabs.length then active else acc := by
  induction tabs generalizing idx acc with
  | nil =>
      simp only [tabsToKdl, activeScan, List.length_nil]
      rw [if_neg (by omega)]
  | cons t rest ih =>
      simp only [tabsToKdl, activeScan, node_bool_tab_to_kdl, List.length_cons]
      rw [ih]
      by_cases h : idx = active <;> simp [h] <;> split_ifs <;> omega

theorem filter_tab_tabsToKdl (tabs : List Tab) (idx active : Nat) :
    (tabsToKdl tabs idx active).filter (fun n => n.name == "tab") =
      tabsToKdl tabs idx active := by
  induction tabs generalizing idx with
  | nil => rfl
  | cons t rest ih =>
      simp [tabsToKdl, List.filter, tab_to_kdl_name, ih]

theorem tabsToKdl_length (tabs : List Tab) (idx active : Nat) :
    (tabsToKdl tabs idx active).length = tabs.length := by
  induction tabs generalizing idx with
  | nil => rfl
  | cons t rest ih => simp [tabsToKdl, ih]

theorem reassignTabs_length (tabs : List Tab) (next : Nat) :
    (reassignTabs tabs next).1.length = tabs.length := by
  induction tabs generalizing next with
  | nil => rfl
  | cons t rest ih => simp [reassignTabs, ih]

theorem validate_node_commandsOk {n : Node} {ids ids' : List Nat}
    (h : validate_node n ids = .ok ids') : commandsOk n = true := by
  induction n generalizing ids ids' with
  | Pane id command =>
      simp only [validate_node, Node.id] at h
      split_ifs at h with h1 h2
      cases command with
      | none => rfl
      | some c =>
          simp only [Option.elim, Bool.not_eq_true] at h2
          simp [commandsOk, h2]
  | Split id d r f s ihf ihs =>
      simp only [validate_node, Node.id] at h
      split_ifs at h with h1 h2
      cases hvf : validate_node f (id :: ids) with
      | error e => rw [hvf] at h; simp [bind, Except.bind] at h
      | ok mid =>
          rw [hvf] at h
          simp only [bind, Except.bind] at h
          simp [commandsOk, ihf hvf, ihs h]

theorem validate_tabs_inv {tabs : List Tab} {ids ids' : List Nat}
    (h : validate_tabs tabs ids = .ok ids') :
    ∀ tab ∈ tabs,
      trim_is_empty tab.name = false ∧ commandsOk tab.root = true := by
  induction tabs generalizing ids ids' with
  | nil => intro tab htab; simp at htab
  | cons t rest ih =>
      intro tab htab
      unfold validate_tabs at h
      split_ifs at h with h1
      cases hvn : validate_node t.root ids with
      | error e => rw [hvn] at h; simp [bind, Except.bind] at h
      | ok mid =>
          rw [hvn] at h
          simp only [bind, Except.bind] at h
          rcases List.mem_cons.mp htab with rfl | htab2
          · exact ⟨by simpa using h1, validate_node_commandsOk hvn⟩
          · exact ih h tab htab2

theorem validate_layout_inv {l : Layout} (h : validate_layout l = .ok ()) :
    validate_name l.name = .ok () ∧ l.tabs.isEmpty = false ∧
      l.active_tab < l.tabs.length ∧
      ∃ ids, validate_tabs l.tabs [] = .ok ids := by
  unfold validate_layout at h
  cases hv : validate_name l.name with
  | error e => rw [hv] at h; simp [bind, Except.bind] at h
  | ok u =>
      cases u
      rw [hv] at h
      simp only [bind, Except.bind] at h
      split_ifs at h with h1 h2
      cases hvt : validate_tabs l.tabs [] with
      | error e => rw [hvt] at h; simp [bind, Except.bind] at h
      | ok ids =>
          exact ⟨rfl, by simpa using h1, by omega, ids, rfl⟩

theorem validate_node_reassign {n : Node} (hc : commandsOk n = true) :
    ∀ next ids, (∀ i ∈ ids, i < next) →
      ∃ ids', validate_node (reassignNode n next).1 ids = .ok ids' ∧
        (∀ i ∈ ids', i < (reassignNode n next).2) ∧
        next < (reassignNode n next).2 := by
  induction n with
  | Pane id command =>
      intro next ids hids
      refine ⟨next :: ids, ?_, ?_, by simp [reassignNode]⟩
      · have hmem : next ∉ ids := fun hm => absurd (hids next hm) (by omega)
        cases command with
        | none => simp [reassignNode, validate_node, Node.id, hmem]
        | some c =>
            simp only [commandsOk, Bool.not_eq_true'] at hc
            simp [reassignNode, validate_node, Node.id, hmem, Option.elim, hc]
      · intro i hi
        simp only [reassignNode]
        rcases List.mem_cons.mp hi with rfl | hi2
        · omega
        · exact Nat.lt_succ_of_lt (hids i hi2)
  | Split id d r f s ihf ihs =>
      intro next ids hids
      simp only [commandsOk, Bool.and_eq_true] at hc
      rcases hrf : reassignNode f (next + 1) with ⟨f', n1⟩
      rcases hrs : reassignNode s n1 with ⟨s', n2⟩
      have hids1 : ∀ i ∈ next :: ids, i < next + 1 := by
        intro i hi
        rcases List.mem_cons.mp hi with rfl | hi2
        · omega
        · exact Nat.lt_succ_of_lt (hids i hi2)
      obtain ⟨ids1, hv1, hb1, hlt1⟩ := ihf hc.1 (next + 1) (next :: ids) hids1
      rw [hrf] at hv1 hb1 hlt1
      dsimp only at hv1 hb1 hlt1
      obtain ⟨ids2, hv2, hb2, hlt2⟩ := ihs hc.2 n1 ids1 hb1
      rw [hrs] at hv2 hb2 hlt2
      dsimp only at hv2 hb2 hlt2
      have hres : reassignNode (Node.Split id d r f s) next =
          (.Split next d (mkRat 1 2) f' s', n2) := by
        simp [reassignNode, hrf, hrs]
      refine ⟨ids2, ?_, ?_, ?_⟩
      · have hmem : next ∉ ids := fun hm => absurd (hids next hm) (by omega)
        rw [hres]
        dsimp only
        simp only [validate_node, Node.id]
        rw [if_neg hmem, if_neg (by decide)]
        simp only [bind, Except.bind, hv1, hv2]
      · rw [hres]
        dsimp only
        exact hb2
      · rw [hres]
        dsimp only
        omega

theorem validate_tabs_reassign {tabs : List Tab}
    (hok : ∀ tab ∈ tabs,
      trim_is_empty tab.name = false ∧ commandsOk tab.root = true) :
    ∀ next ids, (∀ i ∈ ids, i < next) →
      ∃ ids', validate_tabs (reassignTabs tabs next).1 ids = .ok ids' ∧
        (∀ i ∈ ids', i < (reassignTabs tabs next).2) ∧
        next ≤ (reassignTabs tabs next).2 := by
  induction tabs with
  | nil =>
      intro next ids hids
      exact ⟨ids, rfl, fun i hi => hids i hi, le_refl _⟩
  | cons t rest ih =>
      intro next ids hids
      obtain ⟨hname, hcmd⟩ := hok t (List.mem_cons_self t rest)
      have hokr : ∀ tab ∈ rest,
          trim_is_empty tab.name = false ∧ commandsOk tab.root = true :=
        fun tab ht => hok tab (List.mem_cons_of_mem t ht)
      rcases hrt : reassignNode t.root next with ⟨root', n1⟩
      obtain ⟨ids1, hv1, hb1, hlt1⟩ := validate_node_reassign hcmd next ids hids
      rw [hrt] at hv1 hb1 hlt1
      dsimp only at hv1 hb1 hlt1
      obtain ⟨ids2, hv2, hb2, hle2⟩ := ih hokr n1 ids1 hb1
      rcases hrr : reassignTabs rest n1 with ⟨rest', n2⟩
      rw [hrr] at hv2 hb2 hle2
      dsimp only at hv2 hb2 hle2
      have hres : reassignTabs (t :: rest) next = (⟨t.name, root'⟩ :: rest', n2) := by
        simp [reassignTabs, hrt, hrr]
      refine ⟨ids2, ?_, ?_, ?_⟩
      · rw [hres]
        dsimp only
        simp only [validate_tabs, hname, Bool.false_eq_true, if_false]
        simp only [bind, Except.bind, hv1, hv2]
      · rw [hres]
        dsimp only
        exact hb2
      · rw [hres]
        dsimp only
        omega

theorem validate_normalize {l : Layout} (h : validate_layout l = .ok ()) :
    validate_layout (normalizeLayout l) = .ok () := by
  obtain ⟨hname, hempty, hact, ids0, hvt⟩ := validate_layout_inv h
  have htabsok := validate_tabs_inv hvt
  obtain ⟨ids1, hv1, _, _⟩ :=
    validate_tabs_reassign htabsok 1 [] (by intro i hi; simp at hi)
  unfold validate_layout
  rw [show (normalizeLayout l).name = l.name from rfl, hname]
  simp only [bind, Except.bind]
  rw [if_neg ?hne, if_neg ?hlen]
  case hne =>
    intro hcon
    have hlen := reassignTabs_length l.tabs 1
    rw [List.isEmpty_iff] at hcon
    rw [show (normalizeLayout l).tabs = (reassignTabs l.tabs 1).1 from rfl]
      at hcon
    rw [hcon] at hlen
    simp only [List.length_nil] at hlen
    rw [List.isEmpty_eq_false_iff_exists_mem] at hempty
    obtain ⟨x, hx⟩ := hempty
    have := List.length_pos_of_mem hx
    omega
  case hlen =>
    rw [show (normalizeLayout l).tabs = (reassignTabs l.tabs 1).1 from rfl,
      show (normalizeLayout l).active_tab = l.active_tab from rfl,
      reassignTabs_length]
    omega
  rw [show (normalizeLayout l).tabs = (reassignTabs l.tabs 1).1 from rfl, hv1]

theorem roundtrip_eq_normalize {l : Layout}
    (h : validate_layout l = .ok ()) :
    from_kdl_document (to_kdl_document l) = .ok (normalizeLayout l) := by
  obtain ⟨hname, hempty, hact, ids0, hvt⟩ := validate_layout_inv h
  have htabsok := validate_tabs_inv hvt
  have hcmds : ∀ tab ∈ l.tabs, commandsOk tab.root = true :=
    fun t ht => (htabsok t ht).2
  have hfind : (to_kdl_document l).find? (fun n => n.name == "layout") =
      some (.mk "layout" [("name", .str l.name)]
        (some (tabsToKdl l.tabs 0 l.active_tab))) := rfl
  unfold from_kdl_document
  rw [hfind]
  simp only [KdlNodeM.children, filter_tab_tabsToKdl]
  rw [if_neg ?hne2]
  case hne2 =>
    intro hcon
    rw [List.isEmpty_iff] at hcon
    have hlen := tabsToKdl_length l.tabs 0 l.active_tab
    rw [hcon] at hlen
    simp only [List.length_nil] at hlen
    rw [List.isEmpty_eq_false_iff_exists_mem] at hempty
    obtain ⟨x, hx⟩ := hempty
    have := List.length_pos_of_mem hx
    omega
  rw [tabs_from_to_kdl hcmds 1 0 l.active_tab 0]
  simp only [bind, Except.bind]
  rw [activeScan_tabsToKdl,
    if_pos (show 0 ≤ l.active_tab ∧ l.active_tab < 0 + l.tabs.length by omega)]
  have hstr : node_string
      (.mk "layout" [("name", .str l.name)]
        (some (tabsToKdl l.tabs 0 l.active_tab))) "name" = some l.name := rfl
  rw [hstr]
  simp only [Option.getD]
  have hacts : ¬((reassignTabs l.tabs 1).1.length ≤ l.active_tab) := by
    rw [reassignTabs_length]
    omega
  rw [if_neg hacts]
  have hnorm : Layout.mk l.name (reassignTabs l.tabs 1).1 l.active_tab =
      normalizeLayout l := rfl
  rw [hnorm, validate_normalize h]

end Panes

/-- C2 (counterexample): the layout `"dev"` with a single tab whose root
is `Split(id 1, Vertical, ratio 0.3, Pane 2 "bash", Pane 3)` passes
validation, yet saving and loading it through the kdl document
representation does not reproduce it: `node_to_kdl` never writes the
`ratio` (nor ids), so the reloaded Split carries the default ratio 0.5
instead of 0.3. -/
theorem c2_roundtrip_counterexample :
    Panes.validate_layout
        ⟨"dev", [⟨"main", .Split 1 .Vertical (mkRat 3 10)
          (.Pane 2 (some "bash")) (.Pane 3 none)⟩], 0⟩ = .ok () ∧
    Panes.from_kdl_document (Panes.to_kdl_document
        ⟨"dev", [⟨"main", .Split 1 .Vertical (mkRat 3 10)
          (.Pane 2 (some "bash")) (.Pane 3 none)⟩], 0⟩) ≠
      .ok ⟨"dev", [⟨"main", .Split 1 .Vertical (mkRat 3 10)
        (.Pane 2 (some "bash")) (.Pane 3 none)⟩], 0⟩ := by
  constructor
  · decide
  · rw [Panes.roundtrip_eq_normalize (by decide)]
    simp only [ne_eq, Except.ok.injEq]
    decide

/-- C2 (amended: the round trip preserves the layout name, every tab
name, the tree shape, every Split's orientation and every leaf's
command, but *not* the Split ratios nor the node ids: every ratio comes
back as the default 0.5 and ids are re-allocated pre-order from 1 — the
round trip returns exactly `normalizeLayout`): for every layout that
passes validation, parsing the saved kdl document succeeds and yields
the normalized layout. -/
theorem c2_roundtrip_normalized (l : Panes.Layout)
    (h : Panes.validate_layout l = .ok ()) :
    Panes.from_kdl_document (Panes.to_kdl_document l) =
      .ok (Panes.normalizeLayout l) :=
  Panes.roundtrip_eq_normalize h

/-- C2 witness: the amended theorem applied to a concrete two-pane
layout; on this layout (whose ids are already the pre-order allocation
and whose ratio is already 0.5) the round trip is the identity. -/
theorem c2_roundtrip_normalized_witness :
    Panes.validate_layout
        ⟨"dev", [⟨"main", .Split 1 .Vertical (mkRat 1 2)
          (.Pane 2 (some "bash")) (.Pane 3 none)⟩], 0⟩ = .ok () ∧
    Panes.from_kdl_document (Panes.to_kdl_document
        ⟨"dev", [⟨"main", .Split 1 .Vertical (mkRat 1 2)
          (.Pane 2 (some "bash")) (.Pane 3 none)⟩], 0⟩) =
      .ok (Panes.normalizeLayout
        ⟨"dev", [⟨"main", .Split 1 .Vertical (mkRat 1 2)
          (.Pane 2 (some "bash")) (.Pane 3 none)⟩], 0⟩) ∧
    Panes.normalizeLayout
        ⟨"dev", [⟨"main", .Split 1 .Vertical (mkRat 1 2)
          (.Pane 2 (some "bash")) (.Pane 3 none)⟩], 0⟩ =
      ⟨"dev", [⟨"main", .Split 1 .Vertical (mkRat 1 2)
        (.Pane 2 (some "bash")) (.Pane 3 none)⟩], 0⟩ :=
  ⟨by decide,
   c2_roundtrip_normalized
     ⟨"dev", [⟨"main", .Split 1 .Vertical (mkRat 1 2)
       (.Pane 2 (some "bash")) (.Pane 3 none)⟩], 0⟩ (by decide),
   by decide⟩
